import Mathlib

/-!
# FormulaGenerate: the formula-compilation pipeline

A shallow embedding of `generateTool.go`: the naming registry
(`generateFuncName`), the variable extractor (`extractVariables`), the
compilation loop of `main` and the emitter (`generateFormulaCode` with
`codeTemplate`), followed by the properties proved about them.

Conventions of the embedding.

* The two package-level variables `idCounter` and `formulaCache` become the
  fields of an explicit `Registry` value that every operation takes and returns.
  The locks of the source are not part of the sequential model: a call of
  `generateFuncName` is one step. Concurrent callers are modelled apart, by
  `Call.step` and `runSchedule`: each lock-protected section of the function is
  one step and a schedule interleaves the steps of the goroutines.
* Go's `int` is taken at its 64-bit width: `idCounter++` wraps around, see
  `wrapInt`.
* A Go map is an association list without repeated keys, kept in insertion
  order. The list order is not observable through lookups; the one place where
  the source observes an order, `for v := range variables`, goes through
  `RangeOrder`, which stands for the order the Go runtime picks.
-/

namespace FormulaGenerate

deriving instance DecidableEq for Except

/-! ## Machine integers and `strconv.Itoa` -/

/-- The largest value of Go's `int` (64 bit). -/
def maxInt : Int := 2 ^ 63 - 1

/-- The smallest value of Go's `int` (64 bit). -/
def minInt : Int := -(2 ^ 63)

/-- Two's-complement wrap-around of a mathematical integer into the range of
Go's `int`. -/
def wrapInt (x : Int) : Int := (x + 2 ^ 63) % 2 ^ 64 - 2 ^ 63

/-- The decimal rendering `strconv.Itoa`: the digits of the absolute value, with
a leading minus sign for a negative number. -/
def Itoa (i : Int) : String :=
  match i with
  | Int.ofNat n => Nat.repr n
  | Int.negSucc n => "-" ++ Nat.repr (n + 1)

/-! ## Go maps with string keys -/

/-- A Go `map[string]β`: an association list, one pair per key. -/
abbrev GoMap (β : Type) := List (String × β)

/-- The lookup `v, ok := m[k]`. -/
def GoMap.get {β : Type} (m : GoMap β) (k : String) : Option β :=
  match m with
  | [] => none
  | (k', v) :: rest => if k' = k then some v else GoMap.get rest k

/-- The assignment `m[k] = v`: overwrites the value of a key already present,
adds the pair otherwise. -/
def GoMap.set {β : Type} (m : GoMap β) (k : String) (v : β) : GoMap β :=
  match m with
  | [] => [(k, v)]
  | (k', v') :: rest => if k' = k then (k', v) :: rest else (k', v') :: GoMap.set rest k v

/-- The keys of a map. -/
def GoMap.keys {β : Type} (m : GoMap β) : List String := m.map Prod.fst

/-- The values of a map. -/
def GoMap.values {β : Type} (m : GoMap β) : List β := m.map Prod.snd

/-! ## The registry: `idCounter`, `formulaCache`, `generateFuncName` -/

/-- The package-level naming state: `idCounter` and `formulaCache`. -/
structure Registry where
  idCounter : Int
  formulaCache : GoMap String
  deriving DecidableEq, Repr

/-- The state at process start: `idCounter` is zero and `formulaCache` is the
empty map made by `make`. -/
def Registry.initial : Registry := { idCounter := 0, formulaCache := [] }

/-- The function `generateFuncName`, run without interference from other
goroutines. A cached formula returns its stored name and `true`; otherwise the
counter is incremented, the name `Formula_<counter>` is stored under the formula
and returned with `false`. -/
def generateFuncName (reg : Registry) (formula : String) : (String × Bool) × Registry :=
  match reg.formulaCache.get formula with
  | some funcName => ((funcName, true), reg)
  | none =>
    let idCounter := wrapInt (reg.idCounter + 1)
    let funcName := "Formula_" ++ Itoa idCounter
    ((funcName, false),
      { idCounter := idCounter, formulaCache := reg.formulaCache.set formula funcName })

/-- A sequence of sequential `generateFuncName` calls, one per text, threading
the registry; returns the final registry and the result of every call. -/
def runCalls (reg : Registry) (texts : List String) : Registry × List (String × Bool) :=
  match texts with
  | [] => (reg, [])
  | t :: rest =>
    let r := generateFuncName reg t
    let rs := runCalls r.2 rest
    (rs.1, r.1 :: rs.2)

/-! ## The expression parser: `parser.ParseExpr` on arithmetic formulas -/

/-- The tokens of `go/token` that an arithmetic formula is made of. -/
inductive Token
  | IDENT (lit : String)
  | INT (lit : String)
  | ADD
  | SUB
  | MUL
  | QUO
  | LPAREN
  | RPAREN
  deriving DecidableEq, Repr

/-- The expression nodes of `go/ast` that an arithmetic formula parses to. -/
inductive Node
  | Ident (Name : String)
  | BasicLit (Value : String)
  | ParenExpr (X : Node)
  | UnaryExpr (Op : Token) (X : Node)
  | BinaryExpr (X : Node) (Op : Token) (Y : Node)
  deriving DecidableEq, Repr

/-- The reserved words of Go: the scanner never returns them as identifiers. -/
def keywords : List String :=
  ["break", "case", "chan", "const", "continue", "default", "defer", "else",
   "fallthrough", "for", "func", "go", "goto", "if", "import", "interface", "map",
   "package", "range", "return", "select", "struct", "switch", "type", "var"]

/-- A character that may start an identifier. -/
def isLetter (c : Char) : Bool := c.isAlpha || c == '_'

/-- The lexeme the scanner is in the middle of: nothing, an identifier or a
decimal literal; the characters read so far are kept in reverse. -/
inductive Lexeme
  | none
  | ident (acc : List Char)
  | int (acc : List Char)
  deriving DecidableEq, Repr

/-- Close the lexeme under construction. A reserved word is not an identifier,
and a literal of several digits with a leading zero is left to Go's octal rules,
outside the formulas modelled here. -/
def Lexeme.flush : Lexeme → Except String (List Token)
  | Lexeme.none => .ok []
  | Lexeme.ident acc =>
    let lit := String.mk acc.reverse
    if lit ∈ keywords then .error ("expected operand, found " ++ lit)
    else .ok [Token.IDENT lit]
  | Lexeme.int acc =>
    match acc.reverse with
    | '0' :: _ :: _ => .error "unsupported literal with a leading zero"
    | ds => .ok [Token.INT (String.mk ds)]

/-- The operator or parenthesis token of a character, with the characters that
would make Go's scanner read a longer token when they follow directly (as in
`++`, `+=`, `//`, `/*`). -/
def punctuation (c : Char) : Option (Token × List Char) :=
  if c = '+' then some (Token.ADD, ['+', '='])
  else if c = '-' then some (Token.SUB, ['-', '='])
  else if c = '*' then some (Token.MUL, ['='])
  else if c = '/' then some (Token.QUO, ['/', '*', '='])
  else if c = '(' then some (Token.LPAREN, [])
  else if c = ')' then some (Token.RPAREN, [])
  else none

/-- Modelled from the spec: the scanner of the Expression Parser (§4.1, §6),
which the source takes from Go's standard library (`go/scanner` behind
`parser.ParseExpr`). It reads identifiers, decimal integer literals, the
operators `+ - * /` and parentheses, separated by blanks, tabs and carriage
returns, and fails on every other character and on every spelling that Go would
read as something else (a reserved word, a longer operator, a comment, a
literal followed by a letter, a line break). -/
def scan : List Char → Lexeme → Except String (List Token)
  | [], lx => lx.flush
  | c :: rest, lx =>
    if isLetter c then
      match lx with
      | Lexeme.none => scan rest (Lexeme.ident [c])
      | Lexeme.ident acc => scan rest (Lexeme.ident (c :: acc))
      | Lexeme.int _ => .error "unsupported literal"
    else if c.isDigit then
      match lx with
      | Lexeme.none => scan rest (Lexeme.int [c])
      | Lexeme.ident acc => scan rest (Lexeme.ident (c :: acc))
      | Lexeme.int acc => scan rest (Lexeme.int (c :: acc))
    else
      match lx.flush with
      | .error e => .error e
      | .ok done =>
        if c = ' ' ∨ c = '\t' ∨ c = '\r' then
          match scan rest Lexeme.none with
          | .error e => .error e
          | .ok toks => .ok (done ++ toks)
        else
          match punctuation c with
          | none => .error ("illegal character " ++ String.singleton c)
          | some (tok, longer) =>
            match rest with
            | d :: _ =>
              if d ∈ longer then .error "unsupported operator"
              else
                match scan rest Lexeme.none with
                | .error e => .error e
                | .ok toks => .ok (done ++ tok :: toks)
            | [] => .ok (done ++ [tok])

/-- The binary precedence `token.Precedence`: 5 for `*` and `/`, 4 for `+` and
`-`, and `LowestPrec` (0) for every token that is not a binary operator. -/
def Token.Precedence : Token → Nat
  | Token.MUL => 5
  | Token.QUO => 5
  | Token.ADD => 4
  | Token.SUB => 4
  | _ => 0

/-- The precedence of the token at the head of the input (`tokPrec`); the end of
the input has the lowest precedence. -/
def tokPrec : List Token → Nat
  | [] => 0
  | t :: _ => t.Precedence

mutual

/-- The operand of `parseOperand`: an identifier, a literal or a parenthesised
expression. -/
def parseOperand (fuel : Nat) (toks : List Token) : Except String (Node × List Token) :=
  match fuel with
  | 0 => .error "nesting too deep"
  | fuel + 1 =>
    match toks with
    | Token.IDENT lit :: rest => .ok (Node.Ident lit, rest)
    | Token.INT lit :: rest => .ok (Node.BasicLit lit, rest)
    | Token.LPAREN :: rest =>
      match parseBinaryExpr fuel 1 rest with
      | .error e => .error e
      | .ok (x, Token.RPAREN :: rest') => .ok (Node.ParenExpr x, rest')
      | .ok _ => .error "expected )"
    | _ => .error "expected operand"

/-- The unary expression of `parseUnaryExpr`: a sign applied to a unary
expression, or an operand. -/
def parseUnaryExpr (fuel : Nat) (toks : List Token) : Except String (Node × List Token) :=
  match fuel with
  | 0 => .error "nesting too deep"
  | fuel + 1 =>
    match toks with
    | Token.ADD :: rest =>
      match parseUnaryExpr fuel rest with
      | .error e => .error e
      | .ok (x, rest') => .ok (Node.UnaryExpr Token.ADD x, rest')
    | Token.SUB :: rest =>
      match parseUnaryExpr fuel rest with
      | .error e => .error e
      | .ok (x, rest') => .ok (Node.UnaryExpr Token.SUB x, rest')
    | _ => parseOperand fuel toks

/-- The loop of `parseBinaryExpr`: while the next operator binds at least as
tightly as `prec1`, parse its right operand one level tighter and fold it into
the left operand. -/
def parseBinaryLoop (fuel : Nat) (x : Node) (prec1 : Nat) (toks : List Token) :
    Except String (Node × List Token) :=
  match fuel with
  | 0 => .error "nesting too deep"
  | fuel + 1 =>
    if tokPrec toks < prec1 then .ok (x, toks)
    else
      match toks with
      | [] => .ok (x, toks)
      | op :: rest =>
        match parseBinaryExpr fuel (op.Precedence + 1) rest with
        | .error e => .error e
        | .ok (y, rest') => parseBinaryLoop fuel (Node.BinaryExpr x op y) prec1 rest'

/-- The binary expression of `parseBinaryExpr` at precedence `prec1`. -/
def parseBinaryExpr (fuel : Nat) (prec1 : Nat) (toks : List Token) :
    Except String (Node × List Token) :=
  match fuel with
  | 0 => .error "nesting too deep"
  | fuel + 1 =>
    match parseUnaryExpr fuel toks with
    | .error e => .error e
    | .ok (x, rest) => parseBinaryLoop fuel x prec1 rest

end

/-- Modelled from the spec: the Expression Parser (§4.1), which the source takes
from Go's standard library (`parser.ParseExpr`): arithmetic expressions over
identifiers, integer literals, `+ - * /` with Go's precedence and parentheses.
The whole text has to be one expression. The descent is given four steps per
token: a step that consumes no token is followed, at most two steps further
down, by one that does. -/
def ParseExpr (formula : String) : Except String Node :=
  match scan formula.data Lexeme.none with
  | .error e => .error e
  | .ok toks =>
    match parseBinaryExpr (4 * toks.length + 4) 1 toks with
    | .error e => .error e
    | .ok (x, []) => .ok x
    | .ok _ => .error "expected EOF"

/-! ## Variable extraction: `ast.Inspect` and `extractVariables` -/

/-- The traversal `ast.Inspect`: depth first, calling `f` on a node before its
children (left operand before right operand), descending only when `f` returns
`true`, and calling `f` on `nil` after the children. The state `σ` stands for
the variables the closure `f` captures. -/
def Inspect {σ : Type} (node : Node) (f : Option Node → σ → Bool × σ) (s : σ) : σ :=
  let r := f (some node) s
  if r.1 then
    let s' :=
      match node with
      | Node.Ident _ => r.2
      | Node.BasicLit _ => r.2
      | Node.ParenExpr x => Inspect x f r.2
      | Node.UnaryExpr _ x => Inspect x f r.2
      | Node.BinaryExpr x _ y => Inspect y f (Inspect x f r.2)
    (f none s').2
  else r.2

/-- One choice of iteration order for a `range` over a Go map. The language
leaves the order unspecified and the runtime varies it from one loop to the
next; all that is fixed is that every key is produced exactly once, so an order
is any function that rearranges the keys. -/
structure RangeOrder where
  order : List String → List String
  perm : ∀ keys, (order keys).Perm keys

/-- The order that produces the keys as they were inserted. -/
def RangeOrder.insertion : RangeOrder where
  order := fun keys => keys
  perm := fun keys => List.Perm.refl keys

/-- The order that starts the iteration at the key inserted last and wraps
around to the first. -/
def RangeOrder.fromLast : RangeOrder where
  order := fun keys => keys.rotate (keys.length - 1)
  perm := fun keys => List.rotate_perm keys (keys.length - 1)

/-- The closure passed to `ast.Inspect` in `extractVariables`: an identifier node
sets its name in the map `variables`; every node, and `nil`, returns `true`. -/
def collectIdent (n : Option Node) (vars : GoMap Bool) : Bool × GoMap Bool :=
  match n with
  | some (Node.Ident name) => (true, vars.set name true)
  | _ => (true, vars)

/-- The function `extractVariables`: parse the formula, collect the identifier
names into the map `variables`, then append the keys to `sortedVars` in the
order `rng` in which the `range` over the map produces them. The source does
not sort `sortedVars`. -/
def extractVariables (rng : RangeOrder) (formula : String) : Except String (List String) :=
  match ParseExpr formula with
  | .error err => .error ("failed to parse formula: " ++ err)
  | .ok expr =>
    let vars : GoMap Bool := Inspect expr collectIdent []
    let sortedVars := (rng.order vars.keys).foldl (fun sortedVars v => sortedVars ++ [v]) []
    .ok sortedVars

/-! ## The compilation loop of `main` -/

/-- The descriptor `FormulaInfo`. -/
structure FormulaInfo where
  FuncName : String
  FormulaLogic : String
  Variables : List String
  deriving DecidableEq, Repr

/-- The state of `main` while it runs: the registry, the descriptors appended to
`formulas` so far, and the lines printed to standard output so far. -/
structure Compilation where
  registry : Registry
  formulas : List FormulaInfo
  stdout : List String
  deriving DecidableEq, Repr

/-- How the loop of `main` ends: it ran through the whole batch, or it hit a
formula that does not parse and `main` returned on the spot. -/
inductive LoopResult
  | completed (st : Compilation)
  | aborted (st : Compilation)
  deriving DecidableEq, Repr

/-- The state a loop result carries. -/
def LoopResult.state : LoopResult → Compilation
  | LoopResult.completed st => st
  | LoopResult.aborted st => st

/-- The line printed for a duplicate formula. -/
def duplicateReport (formula : String) : String :=
  "Skipping duplicate formula: " ++ formula ++ "\n"

/-- The body of the `for` loop of `main` over `rawFormulas`, from iteration `i`
on. The map iteration inside the `i`-th call of `extractVariables` follows
`rng i`. -/
def compileLoop (rng : Nat → RangeOrder) (i : Nat) (st : Compilation)
    (rawFormulas : List String) : LoopResult :=
  match rawFormulas with
  | [] => LoopResult.completed st
  | formula :: rest =>
    match extractVariables (rng i) formula with
    | .error err =>
      LoopResult.aborted
        { st with stdout := st.stdout ++
            ["Error extracting variables for formula: " ++ err ++ "\n"] }
    | .ok vars =>
      let r := generateFuncName st.registry formula
      if r.1.2 then
        compileLoop rng (i + 1)
          { st with registry := r.2, stdout := st.stdout ++ [duplicateReport formula] } rest
      else
        compileLoop rng (i + 1)
          { st with
            registry := r.2,
            formulas := st.formulas ++
              [{ FuncName := r.1.1, FormulaLogic := formula, Variables := vars }] }
          rest

/-- The state in which `main` enters its loop on a fresh process: the initial
registry, no descriptor, nothing printed. -/
def Compilation.initial : Compilation :=
  { registry := Registry.initial, formulas := [], stdout := [] }

/-- The batch `rawFormulas` written in `main`. -/
def rawFormulas : List String :=
  ["a + b - c", "a * b + c/d", "a + b - c", "a + b * c - d"]

/-! ## The emitter: `text/template`, `codeTemplate`, `generateFormulaCode` -/

/-- The data a template is executed on: strings, integers, slices, and records
with named fields (a Go struct, or a map with string keys). -/
inductive Value
  | string (s : String)
  | int (n : Int)
  | slice (elems : List Value)
  | struct (fields : List (String × Value))

/-- The operand of an action: a field of the current value (written `.Name`) or
a template variable (written `$name`). -/
inductive Arg
  | Field (name : String)
  | Variable (name : String)
  deriving DecidableEq, Repr

/-- The parse tree of a template, for the constructs `codeTemplate` uses:
literal text, an action that prints its operand, and a `range` over a slice
with the variables it declares (none, the element, or the index and the
element). -/
inductive TemplateNode
  | Text (text : String)
  | Action (arg : Arg)
  | Range (decl : List String) (arg : Arg) (body : List TemplateNode)
  deriving Repr

/-- A piece of template source: literal text, or the words of an action found
between the delimiters. -/
inductive Item
  | text (s : String)
  | action (words : List String)
  deriving DecidableEq, Repr

/-- Split the inside of an action into words at blanks; a comma is a word of its
own. The word under construction is kept in reverse in `acc`. -/
def splitWords : List Char → List Char → List String
  | [], acc => if acc = [] then [] else [String.mk acc.reverse]
  | c :: rest, acc =>
    let done := if acc = [] then [] else [String.mk acc.reverse]
    if c = ' ' then done ++ splitWords rest []
    else if c = ',' then done ++ "," :: splitWords rest []
    else splitWords rest (c :: acc)

/-- The lexer of `text/template`: cut the source at the delimiters, two opening
braces and two closing braces. `inAction` tells on which side of a delimiter the
lexer is and `acc` holds the characters of the current piece in reverse. Text
pieces that are empty are dropped. -/
def lexItems : List Char → Bool → List Char → Except String (List Item)
  | [], inAction, acc =>
    if inAction then .error "unclosed action"
    else .ok (if acc = [] then [] else [Item.text (String.mk acc.reverse)])
  | [c], inAction, acc =>
    if inAction then .error "unclosed action"
    else .ok [Item.text (String.mk (c :: acc).reverse)]
  | c :: d :: rest, inAction, acc =>
    if c = '\x7b' ∧ d = '\x7b' ∧ inAction = false then
      match lexItems rest true [] with
      | .error e => .error e
      | .ok items => .ok ((if acc = [] then [] else [Item.text (String.mk acc.reverse)]) ++ items)
    else if c = '\x7d' ∧ d = '\x7d' ∧ inAction = true then
      match lexItems rest false [] with
      | .error e => .error e
      | .ok items => .ok (Item.action (splitWords acc.reverse []) :: items)
    else lexItems (d :: rest) inAction (c :: acc)

/-- Read a word as an operand: a dot followed by a field name, or a dollar sign
followed by a variable name. -/
def parseArg (word : String) : Option Arg :=
  match word.data with
  | '.' :: c :: cs => some (Arg.Field (String.mk (c :: cs)))
  | '$' :: c :: cs => some (Arg.Variable (String.mk (c :: cs)))
  | _ => none

/-- Read a word as a variable being declared. -/
def parseDecl (word : String) : Option String :=
  match word.data with
  | '$' :: c :: cs => some (String.mk (c :: cs))
  | _ => none

/-- The header of a `range` action: the declared variables and the operand. -/
def parseRangeHeader (words : List String) : Option (List String × Arg) :=
  match words with
  | [a] => (parseArg a).map (fun arg => ([], arg))
  | [v, ":=", a] =>
    match parseDecl v, parseArg a with
    | some v, some arg => some ([v], arg)
    | _, _ => none
  | [i, ",", v, ":=", a] =>
    match parseDecl i, parseDecl v, parseArg a with
    | some i, some v, some arg => some ([i, v], arg)
    | _, _, _ => none
  | _ => none

/-- Build the list of nodes up to the `end` that closes the enclosing `range`
(when `inRange`) or up to the end of the source; returns the nodes and the items
left over. Every call consumes an item, which bounds the recursion. -/
def parseItems (fuel : Nat) (items : List Item) (inRange : Bool) :
    Except String (List TemplateNode × List Item) :=
  match fuel with
  | 0 => .error "template too long"
  | fuel + 1 =>
    match items with
    | [] => if inRange then .error "unexpected EOF" else .ok ([], [])
    | Item.text s :: rest =>
      match parseItems fuel rest inRange with
      | .error e => .error e
      | .ok (nodes, left) => .ok (TemplateNode.Text s :: nodes, left)
    | Item.action ["end"] :: rest =>
      if inRange then .ok ([], rest) else .error "unexpected end"
    | Item.action ("range" :: header) :: rest =>
      match parseRangeHeader header with
      | none => .error "unsupported range"
      | some (decl, arg) =>
        match parseItems fuel rest true with
        | .error e => .error e
        | .ok (body, afterEnd) =>
          match parseItems fuel afterEnd inRange with
          | .error e => .error e
          | .ok (nodes, left) => .ok (TemplateNode.Range decl arg body :: nodes, left)
    | Item.action [word] :: rest =>
      match parseArg word with
      | none => .error "unsupported action"
      | some arg =>
        match parseItems fuel rest inRange with
        | .error e => .error e
        | .ok (nodes, left) => .ok (TemplateNode.Action arg :: nodes, left)
    | Item.action _ :: _ => .error "unsupported action"

/-- The method `Parse` of `text/template`, for the constructs of `codeTemplate`:
any other construct is an error. -/
def Template.Parse (text : String) : Except String (List TemplateNode) :=
  match lexItems text.data false [] with
  | .error e => .error e
  | .ok items =>
    match parseItems (items.length + 1) items false with
    | .error e => .error e
    | .ok (nodes, _) => .ok nodes

/-- The value of an operand: a field is looked up in the current value `dot`,
which must be a record having it; a variable is looked up among the declared
variables, the innermost declaration first. -/
def evalArg (dot : Value) (vars : List (String × Value)) : Arg → Except String Value
  | Arg.Field name =>
    match dot with
    | Value.struct fields =>
      match fields.lookup name with
      | some v => .ok v
      | none => .error ("can not evaluate field " ++ name)
    | _ => .error ("can not evaluate field " ++ name)
  | Arg.Variable name =>
    match vars.lookup name with
    | some v => .ok v
    | none => .error ("undefined variable " ++ name)

/-- The text an action prints for a value: a string is copied as it is (this is
`text/template`, nothing is escaped) and an integer is printed in decimal.
Printing a slice or a record does not occur in `codeTemplate` and is left out. -/
def printValue : Value → Except String String
  | Value.string s => .ok s
  | Value.int n => .ok (Itoa n)
  | _ => .error "unsupported value"

/-- The variables a `range` binds for the element at index `i`. -/
def bindRange (decl : List String) (i : Nat) (elem : Value) : List (String × Value) :=
  match decl with
  | [v] => [(v, elem)]
  | [idx, v] => [(idx, Value.int i), (v, elem)]
  | _ => []

/-- Concatenate the outputs of the iterations of a `range`, in order, stopping
at the first error. -/
def concatResults : List (Except String String) → Except String String
  | [] => .ok ""
  | .error e :: _ => .error e
  | .ok s :: rest =>
    match concatResults rest with
    | .error e => .error e
    | .ok t => .ok (s ++ t)

mutual

/-- Execute one node with current value `dot`: text is written as it is, an
action prints its operand, and a `range` executes its body once per element of
the slice, in slice order, with the element as the current value. -/
def execNode (dot : Value) (vars : List (String × Value)) :
    TemplateNode → Except String String
  | TemplateNode.Text text => .ok text
  | TemplateNode.Action arg =>
    match evalArg dot vars arg with
    | .error e => .error e
    | .ok v => printValue v
  | TemplateNode.Range decl arg body =>
    match evalArg dot vars arg with
    | .error e => .error e
    | .ok (Value.slice elems) =>
      concatResults
        (elems.enum.map (fun ie => execList ie.2 (bindRange decl ie.1 ie.2 ++ vars) body))
    | .ok _ => .error "range can not iterate over value"

/-- Execute a list of nodes one after the other. -/
def execList (dot : Value) (vars : List (String × Value)) :
    List TemplateNode → Except String String
  | [] => .ok ""
  | node :: rest =>
    match execNode dot vars node with
    | .error e => .error e
    | .ok s =>
      match execList dot vars rest with
      | .error e => .error e
      | .ok t => .ok (s ++ t)

end

/-- The method `Execute`: run the parsed template on `data`. -/
def Template.Execute (tmpl : List TemplateNode) (data : Value) : Except String String :=
  execList data [] tmpl

/-- The constant `codeTemplate`, character for character (in the source it is a
raw string: the line breaks and tabs are part of it). -/
def codeTemplate : String :=
  "\npackage main\n\n" ++
  "\x7b\x7brange .Formulas\x7d\x7d\n" ++
  "// \x7b\x7b.FuncName\x7d\x7d 是生成的计算函数\n" ++
  "func \x7b\x7b.FuncName\x7d\x7d(params ...int64) int64 \x7b\n" ++
  "\t\x7b\x7brange $index, $var := .Variables\x7d\x7d\n" ++
  "\t\x7b\x7b$var\x7d\x7d := params[\x7b\x7b$index\x7d\x7d] // 动态映射变量\n" ++
  "\t\x7b\x7bend\x7d\x7d\n" ++
  "\treturn \x7b\x7b.FormulaLogic\x7d\x7d\n" ++
  "\x7d\n" ++
  "\x7b\x7bend\x7d\x7d\n" ++
  "\n" ++
  "// 方法名-方法的映射字典\n" ++
  "var FormulaDict = map[string]func(...int64) int64\x7b\n" ++
  "\t\x7b\x7brange .Formulas\x7d\x7d\n" ++
  "\t\"\x7b\x7b.FuncName\x7d\x7d\": \x7b\x7b.FuncName\x7d\x7d,\x7b\x7bend\x7d\x7d\n" ++
  "\x7d\n"

/-- A descriptor as template data: a record with the three fields of
`FormulaInfo`, the variables as a slice of strings. -/
def FormulaInfo.toValue (f : FormulaInfo) : Value :=
  Value.struct
    [("FuncName", Value.string f.FuncName),
     ("FormulaLogic", Value.string f.FormulaLogic),
     ("Variables", Value.slice (f.Variables.map Value.string))]

/-- The part of the file system `generateFormulaCode` touches: the contents of
the files, and for every path the error `os.Create` would report, if any. -/
structure FileSystem where
  files : GoMap String
  createError : String → Option String

/-- What `generateFormulaCode` leaves behind: the file system, the lines printed
and the error returned (`none` for `nil`). -/
structure EmitResult where
  fs : FileSystem
  stdout : List String
  err : Option String

/-- The function `generateFormulaCode`: create (or truncate) the output file,
parse `codeTemplate`, execute it on the map with the single key `Formulas`, and
write the text to the file. A write to the created file is taken to succeed. -/
def generateFormulaCode (fs : FileSystem) (formulas : List FormulaInfo) (outputPath : String) :
    EmitResult :=
  match fs.createError outputPath with
  | some err => { fs := fs, stdout := [], err := some ("failed to create output file: " ++ err) }
  | none =>
    let created : FileSystem := { fs with files := fs.files.set outputPath "" }
    match Template.Parse codeTemplate with
    | .error err =>
      { fs := created, stdout := [], err := some ("failed to parse template: " ++ err) }
    | .ok tmpl =>
      let data := Value.struct [("Formulas", Value.slice (formulas.map FormulaInfo.toValue))]
      match Template.Execute tmpl data with
      | .error err =>
        { fs := created, stdout := [], err := some ("failed to generate code: " ++ err) }
      | .ok text =>
        { fs := { created with files := created.files.set outputPath text },
          stdout := ["Code generated successfully and saved to " ++ outputPath ++ "\n"],
          err := none }

/-- The function `main`: compile `rawFormulas` from the initial registry and
emit the descriptors to `formula_generated.go`. Returns the file system and the
lines printed. -/
def main (rng : Nat → RangeOrder) (fs : FileSystem) : FileSystem × List String :=
  match compileLoop rng 0 Compilation.initial rawFormulas with
  | LoopResult.aborted st => (fs, st.stdout)
  | LoopResult.completed st =>
    let r := generateFormulaCode fs st.formulas "formula_generated.go"
    match r.err with
    | some err => (r.fs, st.stdout ++ r.stdout ++ ["Error: " ++ err ++ "\n"])
    | none => (r.fs, st.stdout ++ r.stdout)

/-- The body of `main` with the batch as a parameter in place of the literal
`rawFormulas`: the loop from the initial registry, then, unless the loop hit a
formula that does not parse and `main` returned, the emission to
`formula_generated.go`. -/
def mainWith (rng : Nat → RangeOrder) (fs : FileSystem) (batch : List String) :
    FileSystem × List String :=
  match compileLoop rng 0 Compilation.initial batch with
  | LoopResult.aborted st => (fs, st.stdout)
  | LoopResult.completed st =>
    let r := generateFormulaCode fs st.formulas "formula_generated.go"
    match r.err with
    | some err => (r.fs, st.stdout ++ r.stdout ++ ["Error: " ++ err ++ "\n"])
    | none => (r.fs, st.stdout ++ r.stdout)

/-! ## `generateFuncName` under concurrent callers -/

/-- Where a goroutine stands inside `generateFuncName`. The function has three
sections that run without interference: the lookup under `cacheLock.RLock`,
the increment under `idLock` (taken and kept), and the store under
`cacheLock.Lock`, after which the deferred `idLock.Unlock` runs. Between two
sections any other goroutine may run. -/
inductive Call
  | lookup (formula : String)
  | waiting (formula : String)
  | storing (formula funcName : String)
  | returned (funcName : String) (isDuplicate : Bool)
  deriving DecidableEq, Repr

/-- The state the goroutines share: the registry, and whether `idLock` is held.
(`cacheLock` is taken and released inside one section, so it is free between
sections.) -/
structure Shared where
  registry : Registry
  idLock : Bool
  deriving DecidableEq, Repr

/-- One section of `generateFuncName`, run by a goroutine standing at `call`;
`none` when the goroutine cannot move: it has returned, or it waits for
`idLock` while another goroutine holds it.

* `lookup`: `formulaCache[formula]` is read; a hit returns the stored name and
  `true`, a miss goes on to take `idLock`.
* `waiting`: `idLock.Lock()`, `idCounter++`, and the name is built from the
  new counter value.
* `storing`: `formulaCache[formula] = funcName`, `idLock` is released, the
  name is returned with `false`. -/
def Call.step (sh : Shared) : Call → Option (Shared × Call)
  | Call.lookup formula =>
    match sh.registry.formulaCache.get formula with
    | some funcName => some (sh, Call.returned funcName true)
    | none => some (sh, Call.waiting formula)
  | Call.waiting formula =>
    if sh.idLock then none
    else
      let idCounter := wrapInt (sh.registry.idCounter + 1)
      let funcName := "Formula_" ++ Itoa idCounter
      some ({ registry := { sh.registry with idCounter := idCounter }, idLock := true },
        Call.storing formula funcName)
  | Call.storing formula funcName =>
    some ({ registry :=
              { sh.registry with
                formulaCache := sh.registry.formulaCache.set formula funcName },
            idLock := false },
      Call.returned funcName false)
  | Call.returned _ _ => none

/-- Run the goroutines `calls` under a schedule: each entry of the schedule
names the goroutine that runs its next section; an entry that names a
goroutine that cannot move, or no goroutine, is passed over. -/
def runSchedule (sh : Shared) (calls : List Call) : List Nat → Shared × List Call
  | [] => (sh, calls)
  | i :: rest =>
    match calls.get? i with
    | none => runSchedule sh calls rest
    | some call =>
      match call.step sh with
      | none => runSchedule sh calls rest
      | some next => runSchedule next.1 (calls.set i next.2) rest

/-- The file `example.go` of the repository, the output of one run of `main`. -/
def exampleGo : String :=
  "\npackage main\n\n\n" ++
  "// Formula_1 是生成的计算函数\n" ++
  "func Formula_1(params ...int64) int64 \x7b\n" ++
  "\t\n\tc := params[0] // 动态映射变量\n" ++
  "\t\n\ta := params[1] // 动态映射变量\n" ++
  "\t\n\tb := params[2] // 动态映射变量\n" ++
  "\t\n\treturn a + b - c\n\x7d\n\n" ++
  "// Formula_2 是生成的计算函数\n" ++
  "func Formula_2(params ...int64) int64 \x7b\n" ++
  "\t\n\ta := params[0] // 动态映射变量\n" ++
  "\t\n\tb := params[1] // 动态映射变量\n" ++
  "\t\n\tc := params[2] // 动态映射变量\n" ++
  "\t\n\td := params[3] // 动态映射变量\n" ++
  "\t\n\treturn a * b + c/d\n\x7d\n\n" ++
  "// Formula_3 是生成的计算函数\n" ++
  "func Formula_3(params ...int64) int64 \x7b\n" ++
  "\t\n\td := params[0] // 动态映射变量\n" ++
  "\t\n\ta := params[1] // 动态映射变量\n" ++
  "\t\n\tb := params[2] // 动态映射变量\n" ++
  "\t\n\tc := params[3] // 动态映射变量\n" ++
  "\t\n\treturn a + b * c - d\n\x7d\n\n\n" ++
  "// 方法名-方法的映射字典\n" ++
  "var FormulaDict = map[string]func(...int64) int64\x7b\n" ++
  "\t\n\t\"Formula_1\": Formula_1," ++
  "\n\t\"Formula_2\": Formula_2," ++
  "\n\t\"Formula_3\": Formula_3," ++
  "\n\x7d\n\n"

/-! ## Definitions used in the statements and proofs -/

/-- The number a list of decimal digit characters denotes. -/
def digitsValue (cs : List Char) : Nat :=
  cs.foldl (fun acc c => 10 * acc + (c.toNat - 48)) 0

/-- The name minted at counter value `k + 1`. -/
def mintedName (k : Nat) : String := "Formula_" ++ Itoa (Int.ofNat (k + 1))

/-- The invariant of the registries that sequential calls build from the initial
one: the counter is the number of cache entries, no text is cached twice, and
the cached names are `Formula_1`, `Formula_2`, ... in the order of minting. -/
def Registry.Minted (reg : Registry) : Prop :=
  reg.idCounter = Int.ofNat reg.formulaCache.length ∧
  reg.formulaCache.keys.Nodup ∧
  reg.formulaCache.values = (List.range reg.formulaCache.length).map mintedName

/-- The names minted by a run: the results flagged as not duplicate. -/
def mintedPairs (texts : List String) (results : List (String × Bool)) : List (String × String) :=
  ((texts.zip results).filter (fun p => p.2.2 = false)).map (fun p => (p.1, p.2.1))

/-- The names of the identifier nodes of an expression tree, in the order in
which the traversal of `ast.Inspect` meets them, repetitions included. -/
def identNames : Node → List String
  | Node.Ident name => [name]
  | Node.BasicLit _ => []
  | Node.ParenExpr x => identNames x
  | Node.UnaryExpr _ x => identNames x
  | Node.BinaryExpr x _ y => identNames x ++ identNames y

/-- The values of the literal nodes of an expression tree. -/
def literalValues : Node → List String
  | Node.Ident _ => []
  | Node.BasicLit value => [value]
  | Node.ParenExpr x => literalValues x
  | Node.UnaryExpr _ x => literalValues x
  | Node.BinaryExpr x _ y => literalValues x ++ literalValues y

/-- The distinct entries of a list in the order of their first occurrences:
position `i` holds the `i`-th distinct entry met when reading the list. -/
def firstSeen (names : List String) : List String :=
  names.foldl (fun seen name => if name ∈ seen then seen else seen ++ [name]) []

/-- The first character of `s` satisfies `p`. -/
def startsWith (p : Char → Bool) (s : List Char) : Prop :=
  ∃ c cs, s = c :: cs ∧ p c = true

/-- An identifier token starts with a letter, a literal token with a digit. -/
def Token.Lexical : Token → Prop
  | Token.IDENT lit => startsWith isLetter lit.data
  | Token.INT lit => startsWith Char.isDigit lit.data
  | _ => True

/-- Every identifier node is named by a word that starts with a letter and
every literal node holds a word that starts with a digit. -/
def Node.Lexical : Node → Prop
  | Node.Ident name => startsWith isLetter name.data
  | Node.BasicLit value => startsWith Char.isDigit value.data
  | Node.ParenExpr x => x.Lexical
  | Node.UnaryExpr _ x => x.Lexical
  | Node.BinaryExpr x _ y => x.Lexical ∧ y.Lexical

/-- The lexeme under construction started with the right kind of character. -/
def Lexeme.Lexical : Lexeme → Prop
  | Lexeme.none => True
  | Lexeme.ident acc => startsWith isLetter acc.reverse
  | Lexeme.int acc => startsWith Char.isDigit acc.reverse

/-- The map iteration orders of the run of `main` recorded in `example.go`: the
second call of `extractVariables` iterates in insertion order, the others
start at the key inserted last. -/
def exampleOrders (i : Nat) : RangeOrder :=
  if i = 1 then RangeOrder.insertion else RangeOrder.fromLast

/-- The body of the inner `range` of `codeTemplate`: one binding line. -/
def bindingBody : List TemplateNode :=
  [TemplateNode.Text "\n\t",
   TemplateNode.Action (Arg.Variable "var"),
   TemplateNode.Text " := params[",
   TemplateNode.Action (Arg.Variable "index"),
   TemplateNode.Text "] // 动态映射变量\n\t"]

/-- The body of the first `range` of `codeTemplate`: one function definition. -/
def functionBody : List TemplateNode :=
  [TemplateNode.Text "\n// ",
   TemplateNode.Action (Arg.Field "FuncName"),
   TemplateNode.Text " 是生成的计算函数\nfunc ",
   TemplateNode.Action (Arg.Field "FuncName"),
   TemplateNode.Text "(params ...int64) int64 \x7b\n\t",
   TemplateNode.Range ["index", "var"] (Arg.Field "Variables") bindingBody,
   TemplateNode.Text "\n\treturn ",
   TemplateNode.Action (Arg.Field "FormulaLogic"),
   TemplateNode.Text "\n\x7d\n"]

/-- The body of the second `range` of `codeTemplate`: one table entry. -/
def entryBody : List TemplateNode :=
  [TemplateNode.Text "\n\t\"",
   TemplateNode.Action (Arg.Field "FuncName"),
   TemplateNode.Text "\": ",
   TemplateNode.Action (Arg.Field "FuncName"),
   TemplateNode.Text ","]

/-- The parse tree of `codeTemplate`. -/
def codeTemplateTree : List TemplateNode :=
  [TemplateNode.Text "\npackage main\n\n",
   TemplateNode.Range [] (Arg.Field "Formulas") functionBody,
   TemplateNode.Text
     "\n\n// 方法名-方法的映射字典\nvar FormulaDict = map[string]func(...int64) int64\x7b\n\t",
   TemplateNode.Range [] (Arg.Field "Formulas") entryBody,
   TemplateNode.Text "\n\x7d\n"]

/-- The line that binds the variable `v` to the argument at position `index`. -/
def renderBinding (index : Nat) (v : String) : String :=
  "\n\t" ++ v ++ " := params[" ++ Itoa (Int.ofNat index) ++ "] // 动态映射变量\n\t"

/-- The concatenation of a list of texts, in list order. -/
def joinAll : List String → String
  | [] => ""
  | s :: rest => s ++ joinAll rest

/-- The function definition of a descriptor: a comment line, the signature with
the descriptor's name, one binding per variable in list order, and the return
of the descriptor's logic. -/
def renderFunction (f : FormulaInfo) : String :=
  "\n// " ++ f.FuncName ++ " 是生成的计算函数\nfunc " ++ f.FuncName ++
    "(params ...int64) int64 \x7b\n\t" ++
    joinAll (f.Variables.enum.map (fun iv => renderBinding iv.1 iv.2)) ++
    "\n\treturn " ++ f.FormulaLogic ++ "\n\x7d\n"

/-- The `FormulaDict` entry of a descriptor: its name as a string key, mapped
to the function of that name. -/
def renderEntry (f : FormulaInfo) : String :=
  "\n\t\"" ++ f.FuncName ++ "\": " ++ f.FuncName ++ ","

/-- The emitted text in closed form: the package clause, the function
definitions of the descriptors in order, the head of the `FormulaDict` table,
the entries of the descriptors in order, and the closing brace. -/
def renderFile (formulas : List FormulaInfo) : String :=
  "\npackage main\n\n" ++ joinAll (formulas.map renderFunction) ++
    "\n\n// 方法名-方法的映射字典\nvar FormulaDict = map[string]func(...int64) int64\x7b\n\t" ++
    joinAll (formulas.map renderEntry) ++ "\n\x7d\n"

/-- The descriptors of the run of `main` recorded in `example.go`. -/
def exampleFormulas : List FormulaInfo :=
  [{ FuncName := "Formula_1", FormulaLogic := "a + b - c", Variables := ["c", "a", "b"] },
   { FuncName := "Formula_2", FormulaLogic := "a * b + c/d", Variables := ["a", "b", "c", "d"] },
   { FuncName := "Formula_3", FormulaLogic := "a + b * c - d", Variables := ["d", "a", "b", "c"] }]

/-- The duplicate reports of a run: one line per call flagged as duplicate, in
call order. -/
def duplicateReports (texts : List String) (results : List (String × Bool)) : List String :=
  ((texts.zip results).filter (fun p => p.2.2 = true)).map (fun p => duplicateReport p.1)

/-- The text and the name of a descriptor. -/
def FormulaInfo.entry (d : FormulaInfo) : String × String := (d.FormulaLogic, d.FuncName)

/-- Whether a formula parses. -/
def parses (formula : String) : Bool :=
  match ParseExpr formula with
  | .ok _ => true
  | .error _ => false

/-! ## Lemmas on Go maps -/

theorem GoMap.get_set_self {β : Type} (m : GoMap β) (k : String) (v : β) :
    (m.set k v).get k = some v := by
  induction m with
  | nil => simp [GoMap.set, GoMap.get]
  | cons p rest ih =>
    obtain ⟨k', v'⟩ := p
    by_cases h : k' = k
    · simp [GoMap.set, GoMap.get, h]
    · simp [GoMap.set, GoMap.get, h, ih]

theorem GoMap.get_set_ne {β : Type} (m : GoMap β) (k t : String) (v : β) (h : t ≠ k) :
    (m.set k v).get t = m.get t := by
  induction m with
  | nil => simp [GoMap.set, GoMap.get, Ne.symm h]
  | cons p rest ih =>
    obtain ⟨k', v'⟩ := p
    by_cases hk : k' = k
    · subst hk
      simp [GoMap.set, GoMap.get, Ne.symm h]
    · by_cases ht : k' = t
      · subst ht
        simp [GoMap.set, GoMap.get, h]
      · simp [GoMap.set, GoMap.get, hk, ht, ih]

theorem GoMap.set_of_get_none {β : Type} (m : GoMap β) (k : String) (v : β)
    (h : m.get k = none) : m.set k v = m ++ [(k, v)] := by
  induction m with
  | nil => simp [GoMap.set]
  | cons p rest ih =>
    obtain ⟨k', v'⟩ := p
    by_cases hk : k' = k
    · simp [GoMap.get, hk] at h
    · simp [GoMap.get, hk] at h
      simp [GoMap.set, hk, ih h]

theorem GoMap.get_eq_none_iff {β : Type} (m : GoMap β) (k : String) :
    m.get k = none ↔ k ∉ m.keys := by
  induction m with
  | nil => simp [GoMap.get, GoMap.keys]
  | cons p rest ih =>
    obtain ⟨k', v'⟩ := p
    by_cases hk : k' = k
    · simp [GoMap.get, GoMap.keys, hk]
    · simp only [GoMap.get, hk, if_false, ih]
      simp [GoMap.keys, Ne.symm hk]

theorem GoMap.get_append_of_get_some {β : Type} (m m' : GoMap β) (k : String) (v : β)
    (h : m.get k = some v) : (m ++ m').get k = some v := by
  induction m with
  | nil => simp [GoMap.get] at h
  | cons p rest ih =>
    obtain ⟨k', v'⟩ := p
    by_cases hk : k' = k
    · simpa [GoMap.get, hk] using h
    · simp only [GoMap.get, hk, if_false] at h
      simp [GoMap.get, hk, ih h]

theorem GoMap.mem_of_get_some {β : Type} (m : GoMap β) (k : String) (v : β)
    (h : m.get k = some v) : (k, v) ∈ m := by
  induction m with
  | nil => simp [GoMap.get] at h
  | cons p rest ih =>
    obtain ⟨k', v'⟩ := p
    by_cases hk : k' = k
    · simp [GoMap.get, hk] at h
      simp [hk, h]
    · simp only [GoMap.get, hk, if_false] at h
      exact List.mem_cons_of_mem _ (ih h)

/-! ## Decimal rendering is injective -/

theorem digitChar_value (k : Nat) (h : k < 10) : (Nat.digitChar k).toNat - 48 = k := by
  interval_cases k <;> rfl

theorem toDigitsCore_spec (fuel : Nat) : ∀ (n : Nat) (ds : List Char), n < fuel →
    ∃ pre, Nat.toDigitsCore 10 fuel n ds = pre ++ ds ∧ digitsValue pre = n := by
  induction fuel with
  | zero => intro n ds h; omega
  | succ fuel ih =>
    intro n ds h
    simp only [Nat.toDigitsCore]
    by_cases h0 : n / 10 = 0
    · refine ⟨[Nat.digitChar (n % 10)], by simp [h0], ?_⟩
      simp only [digitsValue, List.foldl]
      rw [digitChar_value _ (Nat.mod_lt _ (by decide))]
      omega
    · obtain ⟨pre, hpre, hval⟩ := ih (n / 10) (Nat.digitChar (n % 10) :: ds) (by omega)
      refine ⟨pre ++ [Nat.digitChar (n % 10)], by simp [h0, hpre], ?_⟩
      simp only [digitsValue, List.foldl_append, List.foldl] at hval ⊢
      rw [hval, digitChar_value _ (Nat.mod_lt _ (by decide))]
      omega

theorem digitsValue_toDigits (n : Nat) : digitsValue (Nat.toDigits 10 n) = n := by
  obtain ⟨pre, hpre, hval⟩ := toDigitsCore_spec (n + 1) n [] (by omega)
  simp only [Nat.toDigits, hpre, List.append_nil, hval]

theorem Nat_repr_injective (a b : Nat) (h : Nat.repr a = Nat.repr b) : a = b := by
  have h' : Nat.toDigits 10 a = Nat.toDigits 10 b := congrArg String.data h
  rw [← digitsValue_toDigits a, ← digitsValue_toDigits b, h']

theorem Itoa_natCast_injective (a b : Nat) (h : Itoa (a : Int) = Itoa (b : Int)) : a = b :=
  Nat_repr_injective a b h

/-- Names minted at different counter values differ. -/
theorem funcName_injective (a b : Nat)
    (h : "Formula_" ++ Itoa (a : Int) = "Formula_" ++ Itoa (b : Int)) : a = b := by
  apply Itoa_natCast_injective
  have := congrArg String.data h
  simp only [String.data_append, List.append_cancel_left_eq] at this
  exact String.ext this

theorem wrapInt_of_inRange (x : Int) (hlo : minInt ≤ x) (hhi : x ≤ maxInt) : wrapInt x = x := by
  unfold wrapInt
  unfold minInt at hlo
  unfold maxInt at hhi
  omega

/-! ## The registry -/

theorem mintedName_injective : Function.Injective mintedName := by
  intro a b h
  have := funcName_injective (a + 1) (b + 1) h
  omega

theorem generateFuncName_of_get_some (reg : Registry) (formula funcName : String)
    (h : reg.formulaCache.get formula = some funcName) :
    generateFuncName reg formula = ((funcName, true), reg) := by
  simp [generateFuncName, h]

theorem generateFuncName_of_get_none (reg : Registry) (formula : String)
    (h : reg.formulaCache.get formula = none) :
    generateFuncName reg formula =
      (("Formula_" ++ Itoa (wrapInt (reg.idCounter + 1)), false),
        { idCounter := wrapInt (reg.idCounter + 1),
          formulaCache := reg.formulaCache ++
            [(formula, "Formula_" ++ Itoa (wrapInt (reg.idCounter + 1)))] }) := by
  simp [generateFuncName, h, GoMap.set_of_get_none]

/-- A call never changes the name of a text that is cached. -/
theorem generateFuncName_get_stable (reg : Registry) (formula t n : String)
    (h : reg.formulaCache.get t = some n) :
    (generateFuncName reg formula).2.formulaCache.get t = some n := by
  cases hf : reg.formulaCache.get formula with
  | some m => rw [generateFuncName_of_get_some reg formula m hf]; exact h
  | none =>
    rw [generateFuncName_of_get_none reg formula hf]
    exact GoMap.get_append_of_get_some _ _ _ _ h

/-- After a call the text is cached under the name the call returned. -/
theorem generateFuncName_get_self (reg : Registry) (formula : String) :
    (generateFuncName reg formula).2.formulaCache.get formula =
      some (generateFuncName reg formula).1.1 := by
  cases hf : reg.formulaCache.get formula with
  | some m => rw [generateFuncName_of_get_some reg formula m hf]; exact hf
  | none =>
    have := GoMap.get_set_self reg.formulaCache formula
      ("Formula_" ++ Itoa (wrapInt (reg.idCounter + 1)))
    simpa [generateFuncName, hf] using this

theorem runCalls_get_stable (texts : List String) : ∀ (reg : Registry) (t n : String),
    reg.formulaCache.get t = some n → (runCalls reg texts).1.formulaCache.get t = some n := by
  induction texts with
  | nil => intro reg t n h; exact h
  | cons a rest ih =>
    intro reg t n h
    exact ih _ t n (generateFuncName_get_stable reg a t n h)

theorem runCalls_length (texts : List String) : ∀ reg : Registry,
    (runCalls reg texts).2.length = texts.length := by
  induction texts with
  | nil => intro reg; rfl
  | cons a rest ih => intro reg; simp [runCalls, ih]

/-- Every call of a run returned the name under which its text is cached at the
end of the run. -/
theorem runCalls_results (texts : List String) : ∀ (reg : Registry),
    ∀ p ∈ texts.zip (runCalls reg texts).2,
      (runCalls reg texts).1.formulaCache.get p.1 = some p.2.1 := by
  induction texts with
  | nil => intro reg p hp; simp [runCalls] at hp
  | cons a rest ih =>
    intro reg p hp
    simp only [runCalls, List.zip_cons_cons, List.mem_cons] at hp
    rcases hp with hp | hp
    · subst hp
      exact runCalls_get_stable rest _ a _ (generateFuncName_get_self reg a)
    · exact ih _ p hp

/-- The cache only grows, at its end, by the pairs minted. -/
theorem runCalls_cache (texts : List String) : ∀ (reg : Registry),
    (runCalls reg texts).1.formulaCache =
      reg.formulaCache ++ mintedPairs texts (runCalls reg texts).2 := by
  induction texts with
  | nil => intro reg; simp [runCalls, mintedPairs]
  | cons a rest ih =>
    intro reg
    have hrest := ih (generateFuncName reg a).2
    simp only [runCalls]
    rw [hrest]
    cases hf : reg.formulaCache.get a with
    | some m =>
      simp [generateFuncName_of_get_some reg a m hf, mintedPairs]
    | none =>
      simp [generateFuncName_of_get_none reg a hf, mintedPairs]

theorem runCalls_keys (texts : List String) : ∀ (reg : Registry) (t : String),
    t ∈ (runCalls reg texts).1.formulaCache.keys ↔ t ∈ reg.formulaCache.keys ∨ t ∈ texts := by
  induction texts with
  | nil => intro reg t; simp [runCalls]
  | cons a rest ih =>
    intro reg t
    simp only [runCalls]
    rw [ih]
    cases hf : reg.formulaCache.get a with
    | some m =>
      rw [generateFuncName_of_get_some reg a m hf]
      have ha : a ∈ reg.formulaCache.keys := by
        by_contra hna
        rw [(GoMap.get_eq_none_iff _ _).mpr hna] at hf
        exact Option.noConfusion hf
      constructor
      · rintro (h | h)
        · exact Or.inl h
        · exact Or.inr (List.mem_cons_of_mem _ h)
      · rintro (h | h)
        · exact Or.inl h
        · rcases List.mem_cons.mp h with h | h
          · exact Or.inl (h ▸ ha)
          · exact Or.inr h
    | none =>
      rw [generateFuncName_of_get_none reg a hf]
      simp only [GoMap.keys, List.map_append, List.map_cons, List.map_nil, List.mem_append,
        List.mem_singleton, List.mem_cons]
      tauto

theorem Registry.minted_initial : Registry.initial.Minted := by
  simp [Registry.Minted, Registry.initial, GoMap.keys, GoMap.values]

theorem generateFuncName_minted (reg : Registry) (formula : String) (h : reg.Minted)
    (hroom : reg.formulaCache.length + 1 < 2 ^ 63) :
    (generateFuncName reg formula).2.Minted ∧
      (generateFuncName reg formula).2.formulaCache.length ≤ reg.formulaCache.length + 1 := by
  cases hf : reg.formulaCache.get formula with
  | some m =>
    rw [generateFuncName_of_get_some reg formula m hf]
    exact ⟨h, Nat.le_succ _⟩
  | none =>
    rw [generateFuncName_of_get_none reg formula hf]
    obtain ⟨hc, hk, hv⟩ := h
    have hw : wrapInt (reg.idCounter + 1) = Int.ofNat (reg.formulaCache.length + 1) := by
      rw [hc]
      have h1 : (Int.ofNat reg.formulaCache.length : Int) + 1 =
          Int.ofNat (reg.formulaCache.length + 1) := rfl
      rw [h1]
      apply wrapInt_of_inRange
      · unfold minInt
        have : (0 : Int) ≤ Int.ofNat (reg.formulaCache.length + 1) := Int.ofNat_nonneg _
        omega
      · unfold maxInt
        have : (Int.ofNat (reg.formulaCache.length + 1) : Int) < 2 ^ 63 := by
          have := Int.ofNat_lt.mpr hroom
          simpa using this
        omega
    refine ⟨⟨?_, ?_, ?_⟩, ?_⟩
    · simp [hw]
    · have hnot : formula ∉ reg.formulaCache.keys := (GoMap.get_eq_none_iff _ _).mp hf
      simp only [GoMap.keys, List.map_append, List.map_cons, List.map_nil]
      rw [List.nodup_append]
      refine ⟨hk, List.nodup_singleton _, ?_⟩
      intro x hx hx'
      rw [List.mem_singleton] at hx'
      subst hx'
      exact hnot hx
    · simp only [GoMap.values, List.map_append, List.map_cons, List.map_nil, List.length_append,
        List.length_singleton, List.range_succ]
      rw [show List.map Prod.snd reg.formulaCache = reg.formulaCache.values from rfl, hv, hw]
      rfl
    · simp

theorem runCalls_minted (texts : List String) : ∀ (reg : Registry), reg.Minted →
    reg.formulaCache.length + texts.length < 2 ^ 63 → (runCalls reg texts).1.Minted := by
  induction texts with
  | nil => intro reg h _; exact h
  | cons a rest ih =>
    intro reg h hroom
    simp only [List.length_cons] at hroom
    obtain ⟨hm, hl⟩ := generateFuncName_minted reg a h (by omega)
    exact ih _ hm (by omega)

theorem Registry.Minted.values_nodup {reg : Registry} (h : reg.Minted) :
    reg.formulaCache.values.Nodup := by
  rw [h.2.2]
  exact (List.nodup_range _).map mintedName_injective

/-- In a registry built by sequential calls no name is cached for two texts. -/
theorem Registry.Minted.get_injective {reg : Registry} (h : reg.Minted) (t₁ t₂ n : String)
    (h₁ : reg.formulaCache.get t₁ = some n) (h₂ : reg.formulaCache.get t₂ = some n) :
    t₁ = t₂ := by
  have m₁ := GoMap.mem_of_get_some _ _ _ h₁
  have m₂ := GoMap.mem_of_get_some _ _ _ h₂
  have := List.inj_on_of_nodup_map h.values_nodup m₁ m₂ rfl
  exact congrArg Prod.fst this

/-- C1. Run any sequence of fewer than `2 ^ 63` sequential `generateFuncName`
calls from the initial registry. The number of distinct names minted (returned
with `false`) and the number of distinct names returned both equal the number
of distinct texts submitted; two calls returned the same name exactly when
their texts are the same string; and no name is cached for two texts. The
bound on the number of calls is the range of Go's `int` counter. -/
theorem generateFuncName_bijection (texts : List String) (hlen : texts.length < 2 ^ 63) :
    ((((runCalls Registry.initial texts).2.filter (fun r => r.2 = false)).map
        Prod.fst).toFinset.card = texts.toFinset.card) ∧
    (((runCalls Registry.initial texts).2.map Prod.fst).toFinset.card = texts.toFinset.card) ∧
    (∀ p ∈ texts.zip (runCalls Registry.initial texts).2,
      ∀ q ∈ texts.zip (runCalls Registry.initial texts).2, (p.2.1 = q.2.1 ↔ p.1 = q.1)) ∧
    (∀ t₁ t₂ n, (runCalls Registry.initial texts).1.formulaCache.get t₁ = some n →
      (runCalls Registry.initial texts).1.formulaCache.get t₂ = some n → t₁ = t₂) := by
  have hM : (runCalls Registry.initial texts).1.Minted :=
    runCalls_minted texts _ Registry.minted_initial (by simpa [Registry.initial] using hlen)
  have hcache := runCalls_cache texts Registry.initial
  simp only [Registry.initial, List.nil_append] at hcache
  have hres := runCalls_results texts Registry.initial
  have hlenres := runCalls_length texts Registry.initial
  -- the names minted are the values of the final cache
  have hminted : ((runCalls Registry.initial texts).2.filter (fun r => r.2 = false)).map Prod.fst
      = (runCalls Registry.initial texts).1.formulaCache.values := by
    rw [show (runCalls Registry.initial texts).1.formulaCache
        = mintedPairs texts (runCalls Registry.initial texts).2 from hcache]
    generalize (runCalls Registry.initial texts).2 = rs at hlenres
    clear hM hcache hres hlen
    induction texts generalizing rs with
    | nil =>
      cases rs with
      | nil => rfl
      | cons r rs => simp at hlenres
    | cons a rest ih =>
      cases rs with
      | nil => simp at hlenres
      | cons r rs =>
        have hl : rs.length = rest.length := by simpa using hlenres
        have := ih rs hl
        by_cases hr : r.2 = false
        · simp [mintedPairs, GoMap.values, List.filter_cons, hr] at this ⊢
          exact this
        · simp [mintedPairs, GoMap.values, List.filter_cons, hr] at this ⊢
          exact this
  have hkeys : (runCalls Registry.initial texts).1.formulaCache.keys.toFinset = texts.toFinset := by
    ext t
    rw [List.mem_toFinset, List.mem_toFinset, runCalls_keys]
    simp [Registry.initial, GoMap.keys]
  have hcard : (runCalls Registry.initial texts).1.formulaCache.values.toFinset.card
      = texts.toFinset.card := by
    rw [List.toFinset_card_of_nodup hM.values_nodup, ← hkeys,
      List.toFinset_card_of_nodup hM.2.1]
    simp [GoMap.values, GoMap.keys]
  have hnames : ((runCalls Registry.initial texts).2.map Prod.fst).toFinset
      = (runCalls Registry.initial texts).1.formulaCache.values.toFinset := by
    ext n
    simp only [List.mem_toFinset]
    constructor
    · intro hn
      obtain ⟨r, hr, rfl⟩ := List.mem_map.mp hn
      obtain ⟨i, hi, rfl⟩ := List.getElem_of_mem hr
      have hi' : i < texts.length := by omega
      have hp : (texts[i], (runCalls Registry.initial texts).2[i]) ∈
          texts.zip (runCalls Registry.initial texts).2 := by
        have hz : i < (texts.zip (runCalls Registry.initial texts).2).length := by
          simp [List.length_zip, hlenres, hi']
        have := List.getElem_mem hz
        simpa [List.getElem_zip] using this
      have := GoMap.mem_of_get_some _ _ _ (hres _ hp)
      exact List.mem_map.mpr ⟨_, this, rfl⟩
    · intro hn
      rw [← hminted] at hn
      obtain ⟨r, hr, rfl⟩ := List.mem_map.mp hn
      exact List.mem_map.mpr ⟨r, (List.mem_filter.mp hr).1, rfl⟩
  refine ⟨by rw [hminted]; exact hcard, by rw [hnames]; exact hcard, ?_, ?_⟩
  · intro p hp q hq
    have h₁ := hres p hp
    have h₂ := hres q hq
    constructor
    · intro hn
      rw [hn] at h₁
      exact hM.get_injective _ _ _ h₁ h₂
    · intro ht
      rw [ht, h₂] at h₁
      exact (Option.some.inj h₁).symm
  · intro t₁ t₂ n h₁ h₂
    exact hM.get_injective _ _ _ h₁ h₂

/-- Witness of C1 on three calls, the first and the third with the same text and
the second with a text that differs from it by blanks only. -/
theorem generateFuncName_bijection_witness :
    ["a+b", "a + b", "a+b"].length < 2 ^ 63 ∧
    (((runCalls Registry.initial ["a+b", "a + b", "a+b"]).2.map Prod.fst).toFinset.card
      = ["a+b", "a + b", "a+b"].toFinset.card) ∧
    (runCalls Registry.initial ["a+b", "a + b", "a+b"]).2
      = [("Formula_1", false), ("Formula_2", false), ("Formula_1", true)] :=
  ⟨by decide, (generateFuncName_bijection ["a+b", "a + b", "a+b"] (by decide)).2.1, by decide⟩

/-- C2. For every registry and every formula text absent from `formulaCache`,
`generateFuncName` increments `idCounter` (Go's `idCounter++`: the counter
becomes the old value plus one for every counter below the largest `int`),
returns `Formula_` followed by the decimal rendering of the new counter value
together with `false`, records exactly the association text to name and leaves
every other cache entry as it was; the first call from the initial state
returns `("Formula_1", false)`. -/
theorem generateFuncName_fresh (reg : Registry) (formula : String)
    (habsent : reg.formulaCache.get formula = none) :
    (generateFuncName reg formula).1 =
      ("Formula_" ++ Itoa (generateFuncName reg formula).2.idCounter, false) ∧
    (generateFuncName reg formula).2.idCounter = wrapInt (reg.idCounter + 1) ∧
    (minInt ≤ reg.idCounter → reg.idCounter < maxInt →
      (generateFuncName reg formula).2.idCounter = reg.idCounter + 1) ∧
    (generateFuncName reg formula).2.formulaCache.get formula =
      some ("Formula_" ++ Itoa (generateFuncName reg formula).2.idCounter) ∧
    (∀ t, t ≠ formula →
      (generateFuncName reg formula).2.formulaCache.get t = reg.formulaCache.get t) ∧
    (generateFuncName reg formula).2.formulaCache =
      reg.formulaCache ++ [(formula, "Formula_" ++ Itoa (generateFuncName reg formula).2.idCounter)] ∧
    (generateFuncName Registry.initial formula).1 = ("Formula_1", false) := by
  rw [generateFuncName_of_get_none reg formula habsent]
  refine ⟨rfl, rfl, ?_, ?_, ?_, rfl, ?_⟩
  · intro hlo hhi
    apply wrapInt_of_inRange
    · unfold minInt at hlo ⊢; omega
    · unfold maxInt at hhi ⊢; omega
  · have := generateFuncName_get_self reg formula
    rw [generateFuncName_of_get_none reg formula habsent] at this
    exact this
  · intro t ht
    have := GoMap.get_set_ne reg.formulaCache formula t
      ("Formula_" ++ Itoa (wrapInt (reg.idCounter + 1))) ht
    rw [GoMap.set_of_get_none _ _ _ habsent] at this
    exact this
  · rfl

/-- Witness of C2: a second formula submitted to a registry that holds one. -/
theorem generateFuncName_fresh_witness :
    ({ idCounter := 1, formulaCache := [("a + b - c", "Formula_1")] } : Registry).formulaCache.get
        "a * b + c/d" = none ∧
    generateFuncName { idCounter := 1, formulaCache := [("a + b - c", "Formula_1")] } "a * b + c/d"
      = (("Formula_2", false),
          { idCounter := 2,
            formulaCache := [("a + b - c", "Formula_1"), ("a * b + c/d", "Formula_2")] }) ∧
    (generateFuncName Registry.initial "a * b + c/d").1 = ("Formula_1", false) :=
  ⟨by decide, by decide,
    (generateFuncName_fresh { idCounter := 1, formulaCache := [("a + b - c", "Formula_1")] }
      "a * b + c/d" (by decide)).2.2.2.2.2.2⟩

/-- C3. For every registry and every formula text present in `formulaCache`,
`generateFuncName` returns the stored name with `true` and leaves `idCounter`
and `formulaCache` exactly as they were. -/
theorem generateFuncName_duplicate (reg : Registry) (formula funcName : String)
    (hpresent : reg.formulaCache.get formula = some funcName) :
    (generateFuncName reg formula).1 = (funcName, true) ∧
    (generateFuncName reg formula).2 = reg ∧
    (generateFuncName reg formula).2.idCounter = reg.idCounter ∧
    (generateFuncName reg formula).2.formulaCache = reg.formulaCache := by
  rw [generateFuncName_of_get_some reg formula funcName hpresent]
  exact ⟨rfl, rfl, rfl, rfl⟩

/-- Witness of C3: the cached formula submitted again. -/
theorem generateFuncName_duplicate_witness :
    ({ idCounter := 1, formulaCache := [("a + b - c", "Formula_1")] } : Registry).formulaCache.get
        "a + b - c" = some "Formula_1" ∧
    (generateFuncName { idCounter := 1, formulaCache := [("a + b - c", "Formula_1")] }
        "a + b - c").1 = ("Formula_1", true) ∧
    (generateFuncName { idCounter := 1, formulaCache := [("a + b - c", "Formula_1")] }
        "a + b - c").2 = { idCounter := 1, formulaCache := [("a + b - c", "Formula_1")] } :=
  ⟨by decide,
    (generateFuncName_duplicate { idCounter := 1, formulaCache := [("a + b - c", "Formula_1")] }
      "a + b - c" "Formula_1" (by decide)).1,
    (generateFuncName_duplicate { idCounter := 1, formulaCache := [("a + b - c", "Formula_1")] }
      "a + b - c" "Formula_1" (by decide)).2.1⟩

/-- C4. Names are never renamed: take any registry, call `generateFuncName` with
a text `t` and let `n` be the name returned. After any sequence of further
sequential calls with arbitrary texts, `formulaCache[t]` is still `n`, and a
further call with `t` returns `(n, true)` and changes nothing. -/
theorem generateFuncName_never_renamed (reg : Registry) (t : String) (later : List String) :
    (runCalls (generateFuncName reg t).2 later).1.formulaCache.get t
      = some (generateFuncName reg t).1.1 ∧
    generateFuncName (runCalls (generateFuncName reg t).2 later).1 t
      = (((generateFuncName reg t).1.1, true), (runCalls (generateFuncName reg t).2 later).1) := by
  have h := runCalls_get_stable later _ t _ (generateFuncName_get_self reg t)
  exact ⟨h, generateFuncName_of_get_some _ _ _ h⟩

/-! ## Variable extraction -/

theorem Inspect_collectIdent (expr : Node) : ∀ vars : GoMap Bool,
    Inspect expr collectIdent vars =
      (identNames expr).foldl (fun m name => m.set name true) vars := by
  induction expr with
  | Ident name => intro vars; simp [Inspect, collectIdent, identNames]
  | BasicLit value => intro vars; simp [Inspect, collectIdent, identNames]
  | ParenExpr x ih => intro vars; simp [Inspect, collectIdent, identNames, ih]
  | UnaryExpr op x ih => intro vars; simp [Inspect, collectIdent, identNames, ih]
  | BinaryExpr x op y ihx ihy =>
    intro vars
    simp [Inspect, collectIdent, identNames, ihx, ihy, List.foldl_append]

theorem GoMap.keys_set {β : Type} (m : GoMap β) (k : String) (v : β) :
    (m.set k v).keys = if k ∈ m.keys then m.keys else m.keys ++ [k] := by
  induction m with
  | nil => simp [GoMap.set, GoMap.keys]
  | cons p rest ih =>
    obtain ⟨k', v'⟩ := p
    by_cases hk : k' = k
    · simp [GoMap.set, GoMap.keys, hk]
    · have ihs : List.map Prod.fst (GoMap.set rest k v) =
          if k ∈ List.map Prod.fst rest then List.map Prod.fst rest
          else List.map Prod.fst rest ++ [k] := ih
      simp only [GoMap.set, hk, if_false, GoMap.keys, List.map_cons, List.mem_cons,
        Ne.symm hk, false_or, ihs]
      split <;> simp

theorem keys_foldl_set (names : List String) : ∀ vars : GoMap Bool,
    (names.foldl (fun m name => m.set name true) vars).keys =
      names.foldl (fun seen name => if name ∈ seen then seen else seen ++ [name]) vars.keys := by
  induction names with
  | nil => intro vars; rfl
  | cons a rest ih =>
    intro vars
    simp only [List.foldl_cons]
    rw [ih, GoMap.keys_set]

theorem foldl_seen_nodup (names : List String) : ∀ seen : List String, seen.Nodup →
    (names.foldl (fun seen name => if name ∈ seen then seen else seen ++ [name]) seen).Nodup := by
  induction names with
  | nil => intro seen h; exact h
  | cons a rest ih =>
    intro seen h
    simp only [List.foldl_cons]
    apply ih
    split
    · exact h
    · rename_i hne
      rw [List.nodup_append]
      refine ⟨h, List.nodup_singleton _, ?_⟩
      intro x hx hx'
      rw [List.mem_singleton] at hx'
      exact hne (hx' ▸ hx)

theorem mem_foldl_seen (names : List String) : ∀ (seen : List String) (v : String),
    v ∈ names.foldl (fun seen name => if name ∈ seen then seen else seen ++ [name]) seen ↔
      v ∈ seen ∨ v ∈ names := by
  induction names with
  | nil => intro seen v; simp
  | cons a rest ih =>
    intro seen v
    simp only [List.foldl_cons]
    rw [ih]
    by_cases ha : a ∈ seen
    · simp only [ha, if_true, List.mem_cons]
      constructor
      · rintro (h | h)
        · exact Or.inl h
        · exact Or.inr (Or.inr h)
      · rintro (h | h | h)
        · exact Or.inl h
        · exact Or.inl (h ▸ ha)
        · exact Or.inr h
    · simp only [ha, if_false, List.mem_append, List.mem_singleton, List.mem_cons]
      tauto

theorem firstSeen_nodup (names : List String) : (firstSeen names).Nodup :=
  foldl_seen_nodup names [] List.nodup_nil

theorem mem_firstSeen (names : List String) (v : String) : v ∈ firstSeen names ↔ v ∈ names := by
  simp [firstSeen, mem_foldl_seen]

theorem foldl_append_singleton (l : List String) : ∀ init : List String,
    l.foldl (fun sortedVars v => sortedVars ++ [v]) init = init ++ l := by
  induction l with
  | nil => intro init; simp
  | cons a rest ih => intro init; simp [ih]

/-- What `extractVariables` returns for a formula that parses: the distinct
identifier names, taken in first-encounter order and then rearranged by the
order of the map iteration. -/
theorem extractVariables_of_parse (rng : RangeOrder) (formula : String) (expr : Node)
    (hparse : ParseExpr formula = .ok expr) :
    extractVariables rng formula = .ok (rng.order (firstSeen (identNames expr))) := by
  simp only [extractVariables, hparse, Inspect_collectIdent, keys_foldl_set,
    foldl_append_singleton, List.nil_append]
  rfl

theorem extractVariables_of_error (rng : RangeOrder) (formula err : String)
    (hparse : ParseExpr formula = .error err) :
    extractVariables rng formula = .error ("failed to parse formula: " ++ err) := by
  simp only [extractVariables, hparse]

/-- C5, the divergence. The formula `a + b - c` parses and its identifiers are
met in the order `a`, `b`, `c`, which is also their alphabetical order, yet
`extractVariables` can return `[c, a, b]`: the map iteration may start at the
key inserted last, and the list is returned without being sorted. So it is not
the case that for every formula that parses `extractVariables` returns the
distinct identifiers in first-encounter order. -/
theorem extractVariables_not_first_seen :
    ParseExpr "a + b - c" =
      .ok (Node.BinaryExpr (Node.BinaryExpr (Node.Ident "a") Token.ADD (Node.Ident "b"))
        Token.SUB (Node.Ident "c")) ∧
    firstSeen (identNames (Node.BinaryExpr (Node.BinaryExpr (Node.Ident "a") Token.ADD
      (Node.Ident "b")) Token.SUB (Node.Ident "c"))) = ["a", "b", "c"] ∧
    extractVariables RangeOrder.fromLast "a + b - c" = .ok ["c", "a", "b"] ∧
    ¬ (∀ (rng : RangeOrder) (formula : String) (expr : Node), ParseExpr formula = .ok expr →
        extractVariables rng formula = .ok (firstSeen (identNames expr))) := by
  refine ⟨by decide, by decide, by decide, ?_⟩
  intro h
  have := h RangeOrder.fromLast "a + b - c" _ (by decide :
    ParseExpr "a + b - c" =
      .ok (Node.BinaryExpr (Node.BinaryExpr (Node.Ident "a") Token.ADD (Node.Ident "b"))
        Token.SUB (Node.Ident "c")))
  revert this
  decide

/-- What the unsorted loop of `extractVariables` yields for a formula that
parses: a rearrangement of the distinct identifiers in first-encounter order,
the same entries, each once, at positions that the order of the map iteration
decides. When the iteration follows the insertion order the result is the
first-encounter order itself. -/
theorem extractVariables_perm_first_seen (rng : RangeOrder) (formula : String) (expr : Node)
    (hparse : ParseExpr formula = .ok expr) :
    (∃ vars, extractVariables rng formula = .ok vars ∧
      vars.Perm (firstSeen (identNames expr))) ∧
    extractVariables RangeOrder.insertion formula = .ok (firstSeen (identNames expr)) :=
  ⟨⟨_, extractVariables_of_parse rng formula expr hparse, rng.perm _⟩,
    extractVariables_of_parse RangeOrder.insertion formula expr hparse⟩

/-- The rearrangement on `a + b - c`, with the map iteration starting at the key
inserted last. -/
theorem extractVariables_perm_first_seen_witness :
    ParseExpr "a + b - c" =
      .ok (Node.BinaryExpr (Node.BinaryExpr (Node.Ident "a") Token.ADD (Node.Ident "b"))
        Token.SUB (Node.Ident "c")) ∧
    firstSeen (identNames (Node.BinaryExpr (Node.BinaryExpr (Node.Ident "a") Token.ADD
      (Node.Ident "b")) Token.SUB (Node.Ident "c"))) = ["a", "b", "c"] ∧
    (∃ vars, extractVariables RangeOrder.fromLast "a + b - c" = .ok vars ∧
      vars.Perm (firstSeen (identNames (Node.BinaryExpr (Node.BinaryExpr (Node.Ident "a")
        Token.ADD (Node.Ident "b")) Token.SUB (Node.Ident "c"))))) :=
  ⟨by decide, by decide,
    (extractVariables_perm_first_seen RangeOrder.fromLast "a + b - c"
      (Node.BinaryExpr (Node.BinaryExpr (Node.Ident "a") Token.ADD (Node.Ident "b"))
        Token.SUB (Node.Ident "c")) (by decide)).1⟩

/-- C6, the divergence: two calls of `extractVariables` on the text `a + b - c`
can return different lists. With the map iteration in insertion order the call
returns `[a, b, c]`; with the iteration starting at the last key it returns
`[c, a, b]`, the order found in `example.go`. -/
theorem extractVariables_two_orders :
    extractVariables RangeOrder.insertion "a + b - c" = .ok ["a", "b", "c"] ∧
    extractVariables RangeOrder.fromLast "a + b - c" = .ok ["c", "a", "b"] ∧
    extractVariables RangeOrder.insertion "a + b - c" ≠
      extractVariables RangeOrder.fromLast "a + b - c" := by
  decide

/-! ## Identifiers and literals are spelled differently -/

theorem isLetter_not_isDigit (c : Char) (h : isLetter c = true) : c.isDigit = false := by
  simp only [isLetter, Char.isAlpha, Char.isUpper, Char.isLower, Bool.or_eq_true,
    Bool.and_eq_true, decide_eq_true_eq, beq_iff_eq] at h
  simp only [Char.isDigit, Bool.and_eq_false_imp, decide_eq_true_eq, decide_eq_false_iff_not]
  intro h1 h2
  rcases h with (⟨h3, h4⟩ | ⟨h3, h4⟩) | h3
  · rw [ge_iff_le, UInt32.le_def, BitVec.le_def] at h3 h1
    rw [UInt32.le_def, BitVec.le_def] at h2 h4
    change 48 ≤ c.val.toBitVec.toNat at h1
    change c.val.toBitVec.toNat ≤ 57 at h2
    change 65 ≤ c.val.toBitVec.toNat at h3
    omega
  · rw [ge_iff_le, UInt32.le_def, BitVec.le_def] at h3 h1
    rw [UInt32.le_def, BitVec.le_def] at h2 h4
    change 48 ≤ c.val.toBitVec.toNat at h1
    change c.val.toBitVec.toNat ≤ 57 at h2
    change 97 ≤ c.val.toBitVec.toNat at h3
    omega
  · subst h3
    revert h2
    decide

theorem startsWith_snoc (p : Char → Bool) (acc : List Char) (c : Char)
    (h : startsWith p acc.reverse) : startsWith p (c :: acc).reverse := by
  obtain ⟨d, ds, hd, hp⟩ := h
  exact ⟨d, ds ++ [c], by simp [hd], hp⟩

theorem Lexeme.flush_lexical (lx : Lexeme) (toks : List Token) (hlx : lx.Lexical)
    (h : lx.flush = .ok toks) : ∀ t ∈ toks, t.Lexical := by
  cases lx with
  | none =>
    simp only [Lexeme.flush, Except.ok.injEq] at h
    subst h
    simp
  | ident acc =>
    simp only [Lexeme.flush] at h
    split at h
    · exact Except.noConfusion h
    · simp only [Except.ok.injEq] at h
      subst h
      intro t ht
      rw [List.mem_singleton] at ht
      subst ht
      exact hlx
  | int acc =>
    simp only [Lexeme.flush] at h
    split at h
    · exact Except.noConfusion h
    · simp only [Except.ok.injEq] at h
      subst h
      intro t ht
      rw [List.mem_singleton] at ht
      subst ht
      exact hlx

theorem punctuation_lexical (c : Char) (tok : Token) (longer : List Char)
    (h : punctuation c = some (tok, longer)) : tok.Lexical := by
  simp only [punctuation] at h
  repeat' split at h
  all_goals first
    | exact Option.noConfusion h
    | (simp only [Option.some.injEq, Prod.mk.injEq] at h
       rw [← h.1]
       trivial)

theorem scan_lexical (cs : List Char) : ∀ (lx : Lexeme) (toks : List Token), lx.Lexical →
    scan cs lx = .ok toks → ∀ t ∈ toks, t.Lexical := by
  induction cs with
  | nil =>
    intro lx toks hlx h
    exact Lexeme.flush_lexical lx toks hlx (by simpa [scan] using h)
  | cons c rest ih =>
    intro lx toks hlx h
    simp only [scan] at h
    by_cases hletter : isLetter c = true
    · simp only [hletter, if_true] at h
      cases lx with
      | none => exact ih (Lexeme.ident [c]) toks ⟨c, [], rfl, hletter⟩ h
      | ident acc => exact ih (Lexeme.ident (c :: acc)) toks (startsWith_snoc _ _ _ hlx) h
      | int acc => exact Except.noConfusion h
    · have hletterF : isLetter c = false := by simpa using hletter
      simp only [hletterF, Bool.false_eq_true, if_false] at h
      by_cases hdigit : c.isDigit = true
      · simp only [hdigit, if_true] at h
        cases lx with
        | none => exact ih (Lexeme.int [c]) toks ⟨c, [], rfl, hdigit⟩ h
        | ident acc => exact ih (Lexeme.ident (c :: acc)) toks (startsWith_snoc _ _ _ hlx) h
        | int acc => exact ih (Lexeme.int (c :: acc)) toks (startsWith_snoc _ _ _ hlx) h
      · have hdigitF : c.isDigit = false := by simpa using hdigit
        simp only [hdigitF, Bool.false_eq_true, if_false] at h
        cases hflush : lx.flush with
        | error e => simp [hflush] at h
        | ok done =>
          have hd := Lexeme.flush_lexical lx done hlx hflush
          simp only [hflush] at h
          by_cases hws : c = ' ' ∨ c = '\t' ∨ c = '\r'
          · simp only [hws, if_true] at h
            cases hmore : scan rest Lexeme.none with
            | error e => simp [hmore] at h
            | ok more =>
              simp only [hmore, Except.ok.injEq] at h
              subst h
              intro t ht
              rcases List.mem_append.mp ht with ht | ht
              · exact hd t ht
              · exact ih Lexeme.none more trivial hmore t ht
          · simp only [hws, if_false] at h
            cases hp : punctuation c with
            | none => simp [hp] at h
            | some pr =>
              obtain ⟨tok, longer⟩ := pr
              have htok := punctuation_lexical c tok longer hp
              simp only [hp] at h
              cases rest with
              | nil =>
                simp only [Except.ok.injEq] at h
                subst h
                intro t ht
                rcases List.mem_append.mp ht with ht | ht
                · exact hd t ht
                · rw [List.mem_singleton] at ht
                  exact ht ▸ htok
              | cons d rest' =>
                simp only at h
                by_cases hlong : d ∈ longer
                · simp [hlong] at h
                · simp only [hlong, if_false] at h
                  cases hmore : scan (d :: rest') Lexeme.none with
                  | error e => simp [hmore] at h
                  | ok more =>
                    simp only [hmore, Except.ok.injEq] at h
                    subst h
                    intro t ht
                    rcases List.mem_append.mp ht with ht | ht
                    · exact hd t ht
                    · rcases List.mem_cons.mp ht with ht | ht
                      · exact ht ▸ htok
                      · exact ih Lexeme.none more trivial hmore t ht

/-- The four parsing functions build their trees from the tokens they are given
and hand back a part of them. -/
theorem parse_lexical (fuel : Nat) :
    (∀ toks x rest, (∀ t ∈ toks, Token.Lexical t) → parseOperand fuel toks = .ok (x, rest) →
      x.Lexical ∧ ∀ t ∈ rest, Token.Lexical t) ∧
    (∀ toks x rest, (∀ t ∈ toks, Token.Lexical t) → parseUnaryExpr fuel toks = .ok (x, rest) →
      x.Lexical ∧ ∀ t ∈ rest, Token.Lexical t) ∧
    (∀ x₀ prec1 toks x rest, Node.Lexical x₀ → (∀ t ∈ toks, Token.Lexical t) →
      parseBinaryLoop fuel x₀ prec1 toks = .ok (x, rest) →
      x.Lexical ∧ ∀ t ∈ rest, Token.Lexical t) ∧
    (∀ prec1 toks x rest, (∀ t ∈ toks, Token.Lexical t) →
      parseBinaryExpr fuel prec1 toks = .ok (x, rest) →
      x.Lexical ∧ ∀ t ∈ rest, Token.Lexical t) := by
  induction fuel with
  | zero =>
    refine ⟨?_, ?_, ?_, ?_⟩
    · intro toks x rest _ h; simp [parseOperand] at h
    · intro toks x rest _ h; simp [parseUnaryExpr] at h
    · intro x₀ prec1 toks x rest _ _ h; simp [parseBinaryLoop] at h
    · intro prec1 toks x rest _ h; simp [parseBinaryExpr] at h
  | succ fuel ih =>
    obtain ⟨ihO, ihU, ihL, ihB⟩ := ih
    refine ⟨?_, ?_, ?_, ?_⟩
    · intro toks x rest htoks h
      cases toks with
      | nil => simp [parseOperand] at h
      | cons tok rest' =>
        have hrest : ∀ t ∈ rest', Token.Lexical t := fun t ht => htoks t (List.mem_cons_of_mem _ ht)
        have htok : tok.Lexical := htoks _ (List.mem_cons_self _ _)
        cases tok with
        | IDENT lit =>
          simp only [parseOperand, Except.ok.injEq, Prod.mk.injEq] at h
          obtain ⟨rfl, rfl⟩ := h
          exact ⟨htok, hrest⟩
        | INT lit =>
          simp only [parseOperand, Except.ok.injEq, Prod.mk.injEq] at h
          obtain ⟨rfl, rfl⟩ := h
          exact ⟨htok, hrest⟩
        | LPAREN =>
          simp only [parseOperand] at h
          cases hy : parseBinaryExpr fuel 1 rest' with
          | error e => simp [hy] at h
          | ok pr =>
            obtain ⟨y, rest2⟩ := pr
            obtain ⟨h1, h2⟩ := ihB 1 rest' y rest2 hrest hy
            cases rest2 with
            | nil => simp [hy] at h
            | cons t r =>
              cases t <;> simp only [hy] at h <;> try exact Except.noConfusion h
              simp only [Except.ok.injEq, Prod.mk.injEq] at h
              obtain ⟨rfl, rfl⟩ := h
              exact ⟨h1, fun t ht => h2 t (List.mem_cons_of_mem _ ht)⟩
        | ADD => simp [parseOperand] at h
        | SUB => simp [parseOperand] at h
        | MUL => simp [parseOperand] at h
        | QUO => simp [parseOperand] at h
        | RPAREN => simp [parseOperand] at h
    · intro toks x rest htoks h
      have hsign : ∀ (op : Token) (rest' : List Token), (∀ t ∈ rest', Token.Lexical t) →
          (match parseUnaryExpr fuel rest' with
            | .error e => (.error e : Except String (Node × List Token))
            | .ok (x, rest2) => .ok (Node.UnaryExpr op x, rest2)) = .ok (x, rest) →
          x.Lexical ∧ ∀ t ∈ rest, Token.Lexical t := by
        intro op rest' hrest h
        cases hy : parseUnaryExpr fuel rest' with
        | error e => simp [hy] at h
        | ok pr =>
          obtain ⟨y, rest2⟩ := pr
          simp only [hy, Except.ok.injEq, Prod.mk.injEq] at h
          obtain ⟨rfl, rfl⟩ := h
          exact ihU rest' y _ hrest hy
      cases toks with
      | nil => simp only [parseUnaryExpr] at h; exact ihO _ x rest htoks h
      | cons tok rest' =>
        have hrest : ∀ t ∈ rest', Token.Lexical t := fun t ht => htoks t (List.mem_cons_of_mem _ ht)
        cases tok with
        | ADD => simp only [parseUnaryExpr] at h; exact hsign _ rest' hrest h
        | SUB => simp only [parseUnaryExpr] at h; exact hsign _ rest' hrest h
        | IDENT lit => simp only [parseUnaryExpr] at h; exact ihO _ x rest htoks h
        | INT lit => simp only [parseUnaryExpr] at h; exact ihO _ x rest htoks h
        | MUL => simp only [parseUnaryExpr] at h; exact ihO _ x rest htoks h
        | QUO => simp only [parseUnaryExpr] at h; exact ihO _ x rest htoks h
        | LPAREN => simp only [parseUnaryExpr] at h; exact ihO _ x rest htoks h
        | RPAREN => simp only [parseUnaryExpr] at h; exact ihO _ x rest htoks h
    · intro x₀ prec1 toks x rest hx₀ htoks h
      simp only [parseBinaryLoop] at h
      by_cases hprec : tokPrec toks < prec1
      · simp only [hprec, if_true, Except.ok.injEq, Prod.mk.injEq] at h
        obtain ⟨rfl, rfl⟩ := h
        exact ⟨hx₀, htoks⟩
      · simp only [hprec, if_false] at h
        cases toks with
        | nil =>
          simp only [Except.ok.injEq, Prod.mk.injEq] at h
          obtain ⟨rfl, rfl⟩ := h
          exact ⟨hx₀, htoks⟩
        | cons op rest' =>
          simp only at h
          cases hy : parseBinaryExpr fuel (op.Precedence + 1) rest' with
          | error e => simp [hy] at h
          | ok pr =>
            obtain ⟨y, rest2⟩ := pr
            simp only [hy] at h
            obtain ⟨h1, h2⟩ :=
              ihB _ rest' y rest2 (fun t ht => htoks t (List.mem_cons_of_mem _ ht)) hy
            exact ihL (Node.BinaryExpr x₀ op y) prec1 rest2 x rest ⟨hx₀, h1⟩ h2 h
    · intro prec1 toks x rest htoks h
      simp only [parseBinaryExpr] at h
      cases hy : parseUnaryExpr fuel toks with
      | error e => simp [hy] at h
      | ok pr =>
        obtain ⟨y, rest'⟩ := pr
        simp only [hy] at h
        obtain ⟨h1, h2⟩ := ihU toks y rest' htoks hy
        exact ihL y prec1 rest' x rest h1 h2 h

theorem ParseExpr_lexical (formula : String) (expr : Node) (h : ParseExpr formula = .ok expr) :
    expr.Lexical := by
  simp only [ParseExpr] at h
  cases htoks : scan formula.data Lexeme.none with
  | error e => simp [htoks] at h
  | ok toks =>
    have hl := scan_lexical _ Lexeme.none toks trivial htoks
    simp only [htoks] at h
    cases hx : parseBinaryExpr (4 * toks.length + 4) 1 toks with
    | error e => simp [hx] at h
    | ok pr =>
      obtain ⟨x, rest⟩ := pr
      cases rest with
      | nil =>
        simp only [hx, Except.ok.injEq] at h
        subst h
        exact ((parse_lexical _).2.2.2 1 toks _ _ hl hx).1
      | cons t r => simp [hx] at h

theorem identNames_startsWith (expr : Node) (h : expr.Lexical) :
    ∀ v ∈ identNames expr, startsWith isLetter v.data := by
  induction expr with
  | Ident name => intro v hv; simp only [identNames, List.mem_singleton] at hv; exact hv ▸ h
  | BasicLit value => intro v hv; simp [identNames] at hv
  | ParenExpr x ih => exact ih h
  | UnaryExpr op x ih => exact ih h
  | BinaryExpr x op y ihx ihy =>
    intro v hv
    simp only [identNames, List.mem_append] at hv
    rcases hv with hv | hv
    · exact ihx h.1 v hv
    · exact ihy h.2 v hv

theorem literalValues_startsWith (expr : Node) (h : expr.Lexical) :
    ∀ v ∈ literalValues expr, startsWith Char.isDigit v.data := by
  induction expr with
  | Ident name => intro v hv; simp [literalValues] at hv
  | BasicLit value =>
    intro v hv; simp only [literalValues, List.mem_singleton] at hv; exact hv ▸ h
  | ParenExpr x ih => exact ih h
  | UnaryExpr op x ih => exact ih h
  | BinaryExpr x op y ihx ihy =>
    intro v hv
    simp only [literalValues, List.mem_append] at hv
    rcases hv with hv | hv
    · exact ihx h.1 v hv
    · exact ihy h.2 v hv

/-- C7. For every formula that parses, the list returned by `extractVariables`
has no repeated entry; a name is in the list exactly when it is the name of an
identifier node of the parsed tree; every entry is spelled as an identifier
(it starts with a letter or an underscore) and no entry is the value of a
literal node of the tree. -/
theorem extractVariables_distinct_identifiers (rng : RangeOrder) (formula : String) (expr : Node)
    (hparse : ParseExpr formula = .ok expr) :
    ∃ vars, extractVariables rng formula = .ok vars ∧
      vars.Nodup ∧
      (∀ v, v ∈ vars ↔ v ∈ identNames expr) ∧
      (∀ v ∈ vars, startsWith isLetter v.data) ∧
      (∀ v ∈ vars, v ∉ literalValues expr) := by
  have hmem : ∀ v, v ∈ rng.order (firstSeen (identNames expr)) ↔ v ∈ identNames expr := by
    intro v
    rw [(rng.perm _).mem_iff, mem_firstSeen]
  have hlex := ParseExpr_lexical formula expr hparse
  refine ⟨_, extractVariables_of_parse rng formula expr hparse,
    (rng.perm _).nodup_iff.mpr (firstSeen_nodup _), hmem, ?_, ?_⟩
  · intro v hv
    exact identNames_startsWith expr hlex v ((hmem v).mp hv)
  · intro v hv hlit
    obtain ⟨c, cs, hc, hletter⟩ := identNames_startsWith expr hlex v ((hmem v).mp hv)
    obtain ⟨d, ds, hd, hdigit⟩ := literalValues_startsWith expr hlex v hlit
    rw [hc] at hd
    have hcd : c = d := (List.cons.inj hd).1
    rw [← hcd, isLetter_not_isDigit c hletter] at hdigit
    exact Bool.noConfusion hdigit

/-- Witness of C7 on a formula that mentions `a1` twice and has two literals. -/
theorem extractVariables_distinct_identifiers_witness :
    ParseExpr "a1 * 20 + a1 / (b - 3)" =
      .ok (Node.BinaryExpr
        (Node.BinaryExpr (Node.Ident "a1") Token.MUL (Node.BasicLit "20")) Token.ADD
        (Node.BinaryExpr (Node.Ident "a1") Token.QUO
          (Node.ParenExpr (Node.BinaryExpr (Node.Ident "b") Token.SUB (Node.BasicLit "3"))))) ∧
    extractVariables RangeOrder.insertion "a1 * 20 + a1 / (b - 3)" = .ok ["a1", "b"] ∧
    (∃ vars, extractVariables RangeOrder.fromLast "a1 * 20 + a1 / (b - 3)" = .ok vars ∧
      vars.Nodup ∧
      (∀ v, v ∈ vars ↔ v ∈ identNames (Node.BinaryExpr
        (Node.BinaryExpr (Node.Ident "a1") Token.MUL (Node.BasicLit "20")) Token.ADD
        (Node.BinaryExpr (Node.Ident "a1") Token.QUO
          (Node.ParenExpr (Node.BinaryExpr (Node.Ident "b") Token.SUB (Node.BasicLit "3")))))) ∧
      (∀ v ∈ vars, startsWith isLetter v.data) ∧
      (∀ v ∈ vars, v ∉ literalValues (Node.BinaryExpr
        (Node.BinaryExpr (Node.Ident "a1") Token.MUL (Node.BasicLit "20")) Token.ADD
        (Node.BinaryExpr (Node.Ident "a1") Token.QUO
          (Node.ParenExpr (Node.BinaryExpr (Node.Ident "b") Token.SUB (Node.BasicLit "3"))))))) :=
  ⟨by decide, by decide,
    extractVariables_distinct_identifiers RangeOrder.fromLast "a1 * 20 + a1 / (b - 3)"
      (Node.BinaryExpr
        (Node.BinaryExpr (Node.Ident "a1") Token.MUL (Node.BasicLit "20")) Token.ADD
        (Node.BinaryExpr (Node.Ident "a1") Token.QUO
          (Node.ParenExpr (Node.BinaryExpr (Node.Ident "b") Token.SUB (Node.BasicLit "3")))))
      (by decide)⟩

/-! ## The compilation loop -/

/-- C8, the divergence. On the batch of `main`, from the empty registry, the
loop produces three descriptors named `Formula_1`, `Formula_2`, `Formula_3` in
the order of first occurrence and reports the third input as a duplicate, but
the variable lists depend on the order of the map iteration: with the
iteration in insertion order they are `[a,b,c]`, `[a,b,c,d]`, `[a,b,c,d]`, and
with the orders of the run recorded in `example.go` they are `[c,a,b]`,
`[a,b,c,d]`, `[d,a,b,c]`. -/
theorem compileLoop_rawFormulas_variables :
    compileLoop (fun _ => RangeOrder.insertion) 0 Compilation.initial
        ["a + b - c", "a * b + c/d", "a + b - c", "a + b * c - d"] =
      LoopResult.completed
        { registry :=
            { idCounter := 3,
              formulaCache := [("a + b - c", "Formula_1"), ("a * b + c/d", "Formula_2"),
                ("a + b * c - d", "Formula_3")] },
          formulas :=
            [{ FuncName := "Formula_1", FormulaLogic := "a + b - c",
               Variables := ["a", "b", "c"] },
             { FuncName := "Formula_2", FormulaLogic := "a * b + c/d",
               Variables := ["a", "b", "c", "d"] },
             { FuncName := "Formula_3", FormulaLogic := "a + b * c - d",
               Variables := ["a", "b", "c", "d"] }],
          stdout := ["Skipping duplicate formula: a + b - c\n"] } ∧
    compileLoop exampleOrders 0 Compilation.initial
        ["a + b - c", "a * b + c/d", "a + b - c", "a + b * c - d"] =
      LoopResult.completed
        { registry :=
            { idCounter := 3,
              formulaCache := [("a + b - c", "Formula_1"), ("a * b + c/d", "Formula_2"),
                ("a + b * c - d", "Formula_3")] },
          formulas :=
            [{ FuncName := "Formula_1", FormulaLogic := "a + b - c",
               Variables := ["c", "a", "b"] },
             { FuncName := "Formula_2", FormulaLogic := "a * b + c/d",
               Variables := ["a", "b", "c", "d"] },
             { FuncName := "Formula_3", FormulaLogic := "a + b * c - d",
               Variables := ["d", "a", "b", "c"] }],
          stdout := ["Skipping duplicate formula: a + b - c\n"] } := by
  constructor <;> decide

/-- One iteration of the loop on a formula that parses and is not cached. -/
theorem compileLoop_cons_fresh (rng : Nat → RangeOrder) (i : Nat) (st : Compilation)
    (formula : String) (rest : List String) (expr : Node)
    (hparse : ParseExpr formula = .ok expr)
    (habsent : st.registry.formulaCache.get formula = none) :
    compileLoop rng i st (formula :: rest) =
      compileLoop rng (i + 1)
        { st with
          registry := (generateFuncName st.registry formula).2,
          formulas := st.formulas ++
            [{ FuncName := (generateFuncName st.registry formula).1.1,
               FormulaLogic := formula,
               Variables := (rng i).order (firstSeen (identNames expr)) }] } rest := by
  rw [compileLoop, extractVariables_of_parse (rng i) formula expr hparse]
  simp [generateFuncName_of_get_none st.registry formula habsent]

/-- One iteration of the loop on a formula that parses and is cached. -/
theorem compileLoop_cons_duplicate (rng : Nat → RangeOrder) (i : Nat) (st : Compilation)
    (formula funcName : String) (rest : List String) (expr : Node)
    (hparse : ParseExpr formula = .ok expr)
    (hpresent : st.registry.formulaCache.get formula = some funcName) :
    compileLoop rng i st (formula :: rest) =
      compileLoop rng (i + 1)
        { st with stdout := st.stdout ++ [duplicateReport formula] } rest := by
  rw [compileLoop, extractVariables_of_parse (rng i) formula expr hparse]
  simp [generateFuncName_of_get_some st.registry formula funcName hpresent]

/-- The loop over repetitions of a formula that parses and is cached: one
duplicate report per repetition, nothing else changes. -/
theorem compileLoop_replicate_duplicate (rng : Nat → RangeOrder) (formula funcName : String)
    (expr : Node) (hparse : ParseExpr formula = .ok expr) (k : Nat) :
    ∀ (i : Nat) (st : Compilation), st.registry.formulaCache.get formula = some funcName →
      compileLoop rng i st (List.replicate k formula) =
        LoopResult.completed
          { st with stdout := st.stdout ++ List.replicate k (duplicateReport formula) } := by
  induction k with
  | zero => intro i st _; simp [compileLoop]
  | succ k ih =>
    intro i st hpresent
    rw [List.replicate_succ,
      compileLoop_cons_duplicate rng i st formula funcName _ expr hparse hpresent,
      ih (i + 1) { st with stdout := st.stdout ++ [duplicateReport formula] } hpresent]
    simp [List.replicate_succ]

/-- C9. For every formula text `t` that parses and every `N ≥ 1`, the loop of
`main` run from the empty registry on `t` repeated `N` times completes with
exactly one descriptor (named `Formula_1`, with logic `t`) and exactly `N - 1`
duplicate reports: standard output holds `N - 1` lines, each of them the line
`Skipping duplicate formula: ` followed by `t` and a line break, and nothing
else. -/
theorem compileLoop_idempotent_dedup (rng : Nat → RangeOrder) (t : String) (N : Nat)
    (expr : Node) (hparse : ParseExpr t = .ok expr) (hN : 1 ≤ N) :
    ∃ st, compileLoop rng 0 Compilation.initial (List.replicate N t) = LoopResult.completed st ∧
      st.formulas.length = 1 ∧
      st.formulas =
        [{ FuncName := "Formula_1", FormulaLogic := t,
           Variables := (rng 0).order (firstSeen (identNames expr)) }] ∧
      st.stdout = List.replicate (N - 1) ("Skipping duplicate formula: " ++ t ++ "\n") ∧
      st.stdout.length = N - 1 ∧
      (∀ line ∈ st.stdout, line = "Skipping duplicate formula: " ++ t ++ "\n") ∧
      st.registry = { idCounter := 1, formulaCache := [(t, "Formula_1")] } := by
  obtain ⟨k, rfl⟩ : ∃ k, N = k + 1 := ⟨N - 1, by omega⟩
  have hfirst := compileLoop_cons_fresh rng 0 Compilation.initial t (List.replicate k t) expr
    hparse rfl
  have hgen : generateFuncName Compilation.initial.registry t =
      (("Formula_1", false), { idCounter := 1, formulaCache := [(t, "Formula_1")] }) := rfl
  rw [hgen] at hfirst
  have hrest := compileLoop_replicate_duplicate rng t "Formula_1" expr hparse k 1
    { Compilation.initial with
      registry := { idCounter := 1, formulaCache := [(t, "Formula_1")] },
      formulas := Compilation.initial.formulas ++
        [{ FuncName := "Formula_1", FormulaLogic := t,
           Variables := (rng 0).order (firstSeen (identNames expr)) }] }
    (by simp [GoMap.get])
  refine ⟨{ registry := { idCounter := 1, formulaCache := [(t, "Formula_1")] },
             formulas := [{ FuncName := "Formula_1", FormulaLogic := t,
                            Variables := (rng 0).order (firstSeen (identNames expr)) }],
             stdout := List.replicate k (duplicateReport t) }, ?_, rfl, rfl, rfl, ?_, ?_, rfl⟩
  · rw [List.replicate_succ, hfirst]
    simpa [Compilation.initial] using hrest
  · simp
  · intro line hline
    exact (List.eq_of_mem_replicate hline).trans rfl

/-- Witness of C9: `a + b - c` submitted three times gives one descriptor and
the duplicate line twice. -/
theorem compileLoop_idempotent_dedup_witness :
    ParseExpr "a + b - c" =
      .ok (Node.BinaryExpr (Node.BinaryExpr (Node.Ident "a") Token.ADD (Node.Ident "b"))
        Token.SUB (Node.Ident "c")) ∧
    1 ≤ 3 ∧
    (∃ st, compileLoop exampleOrders 0 Compilation.initial (List.replicate 3 "a + b - c") =
        LoopResult.completed st ∧
      st.formulas.length = 1 ∧
      st.stdout =
        ["Skipping duplicate formula: a + b - c\n", "Skipping duplicate formula: a + b - c\n"] ∧
      st.stdout.length = 3 - 1) :=
  ⟨by decide, by decide,
    (compileLoop_idempotent_dedup exampleOrders "a + b - c" 3
      (Node.BinaryExpr (Node.BinaryExpr (Node.Ident "a") Token.ADD (Node.Ident "b"))
        Token.SUB (Node.Ident "c")) (by decide) (by decide)).imp
      (fun _ h => ⟨h.1, h.2.1, h.2.2.2.1.trans (by decide), h.2.2.2.2.1⟩)⟩

/-! ## The emitter -/

set_option maxRecDepth 100000 in
theorem parse_codeTemplate : Template.Parse codeTemplate = .ok codeTemplateTree := by
  rfl

theorem concatResults_map_ok {α : Type} (f : α → Except String String) (g : α → String)
    (l : List α) (h : ∀ x ∈ l, f x = .ok (g x)) :
    concatResults (l.map f) = .ok (joinAll (l.map g)) := by
  induction l with
  | nil => rfl
  | cons a rest ih =>
    have ha := h a (List.mem_cons_self _ _)
    have hrest := ih (fun x hx => h x (List.mem_cons_of_mem _ hx))
    simp only [List.map_cons, concatResults, ha, hrest, joinAll]

theorem enumFrom_map {α β : Type} (toV : α → β) (l : List α) : ∀ n : Nat,
    List.enumFrom n (l.map toV) = (List.enumFrom n l).map (fun ix => (ix.1, toV ix.2)) := by
  induction l with
  | nil => intro n; rfl
  | cons a rest ih => intro n; simp [List.enumFrom, ih]

/-- A `range` over a slice whose body succeeds on every element writes the
outputs of the iterations one after the other, in slice order. -/
theorem execNode_range {α : Type} (toV : α → Value) (l : List α) (dot : Value)
    (vars : List (String × Value)) (decl : List String) (arg : Arg) (body : List TemplateNode)
    (g : Nat → α → String)
    (harg : evalArg dot vars arg = .ok (Value.slice (l.map toV)))
    (hbody : ∀ (i : Nat) (x : α),
      execList (toV x) (bindRange decl i (toV x) ++ vars) body = .ok (g i x)) :
    execNode dot vars (TemplateNode.Range decl arg body) =
      .ok (joinAll (l.enum.map (fun ix => g ix.1 ix.2))) := by
  simp only [execNode, harg]
  rw [List.enum, enumFrom_map, List.map_map]
  exact concatResults_map_ok _ _ _ (fun ix _ => hbody ix.1 ix.2)

theorem execList_cons_ok (dot : Value) (vars : List (String × Value)) (node : TemplateNode)
    (rest : List TemplateNode) (s t : String) (hnode : execNode dot vars node = .ok s)
    (hrest : execList dot vars rest = .ok t) :
    execList dot vars (node :: rest) = .ok (s ++ t) := by
  simp only [execList, hnode, hrest]

theorem execList_nil (dot : Value) (vars : List (String × Value)) :
    execList dot vars [] = .ok "" := by
  simp only [execList]

theorem execNode_text (dot : Value) (vars : List (String × Value)) (text : String) :
    execNode dot vars (TemplateNode.Text text) = .ok text := by
  simp only [execNode]

/-- The body of the inner `range`, executed for the variable `v` at position
`i`, writes the binding line of `v`. -/
theorem exec_bindingBody (vars : List (String × Value)) (i : Nat) (v : String) :
    execList (Value.string v) (bindRange ["index", "var"] i (Value.string v) ++ vars)
      bindingBody = .ok (renderBinding i v) := by
  simp [bindingBody, execList, execNode, evalArg, bindRange, printValue, List.lookup,
    renderBinding, String.append_assoc]

theorem evalArg_field (f : FormulaInfo) (vars : List (String × Value)) :
    evalArg f.toValue vars (Arg.Field "FuncName") = .ok (Value.string f.FuncName) ∧
    evalArg f.toValue vars (Arg.Field "FormulaLogic") = .ok (Value.string f.FormulaLogic) ∧
    evalArg f.toValue vars (Arg.Field "Variables") =
      .ok (Value.slice (f.Variables.map Value.string)) := by
  simp [evalArg, FormulaInfo.toValue, List.lookup]

theorem execNode_field (f : FormulaInfo) (vars : List (String × Value)) :
    execNode f.toValue vars (TemplateNode.Action (Arg.Field "FuncName")) = .ok f.FuncName ∧
    execNode f.toValue vars (TemplateNode.Action (Arg.Field "FormulaLogic")) =
      .ok f.FormulaLogic := by
  simp only [execNode, (evalArg_field f vars).1, (evalArg_field f vars).2.1, printValue,
    and_self]

/-- The body of the first `range`, executed on a descriptor, writes the
function definition of the descriptor. -/
theorem exec_functionBody (vars : List (String × Value)) (i : Nat) (f : FormulaInfo) :
    execList f.toValue (bindRange [] i f.toValue ++ vars) functionBody =
      .ok (renderFunction f) := by
  have hrange := execNode_range Value.string f.Variables f.toValue
    (bindRange [] i f.toValue ++ vars) ["index", "var"] (Arg.Field "Variables") bindingBody
    renderBinding (evalArg_field f _).2.2 (exec_bindingBody _)
  have hname := (execNode_field f (bindRange [] i f.toValue ++ vars)).1
  have hlogic := (execNode_field f (bindRange [] i f.toValue ++ vars)).2
  rw [functionBody,
    execList_cons_ok _ _ _ _ _ _ (execNode_text _ _ _)
      (execList_cons_ok _ _ _ _ _ _ hname
        (execList_cons_ok _ _ _ _ _ _ (execNode_text _ _ _)
          (execList_cons_ok _ _ _ _ _ _ hname
            (execList_cons_ok _ _ _ _ _ _ (execNode_text _ _ _)
              (execList_cons_ok _ _ _ _ _ _ hrange
                (execList_cons_ok _ _ _ _ _ _ (execNode_text _ _ _)
                  (execList_cons_ok _ _ _ _ _ _ hlogic
                    (execList_cons_ok _ _ _ _ _ _ (execNode_text _ _ _)
                      (execList_nil _ _)))))))))]
  simp [renderFunction, String.append_assoc]

/-- The body of the second `range`, executed on a descriptor, writes the table
entry of the descriptor. -/
theorem exec_entryBody (vars : List (String × Value)) (i : Nat) (f : FormulaInfo) :
    execList f.toValue (bindRange [] i f.toValue ++ vars) entryBody = .ok (renderEntry f) := by
  have hname := (execNode_field f (bindRange [] i f.toValue ++ vars)).1
  rw [entryBody,
    execList_cons_ok _ _ _ _ _ _ (execNode_text _ _ _)
      (execList_cons_ok _ _ _ _ _ _ hname
        (execList_cons_ok _ _ _ _ _ _ (execNode_text _ _ _)
          (execList_cons_ok _ _ _ _ _ _ hname
            (execList_cons_ok _ _ _ _ _ _ (execNode_text _ _ _)
              (execList_nil _ _)))))]
  simp [renderEntry, String.append_assoc]

theorem joinAll_enum_map {α : Type} (g : α → String) (l : List α) :
    joinAll (l.enum.map (fun ix => g ix.2)) = joinAll (l.map g) := by
  have : l.enum.map (fun ix => g ix.2) = l.map g := by
    rw [show (fun ix : Nat × α => g ix.2) = g ∘ Prod.snd from rfl, ← List.map_map,
      List.enum_map_snd]
  rw [this]

/-- Executing the parse tree of `codeTemplate` on a sequence of descriptors
writes the closed form `renderFile`. -/
theorem execute_codeTemplateTree (formulas : List FormulaInfo) :
    Template.Execute codeTemplateTree
      (Value.struct [("Formulas", Value.slice (formulas.map FormulaInfo.toValue))]) =
      .ok (renderFile formulas) := by
  have harg : evalArg
      (Value.struct [("Formulas", Value.slice (formulas.map FormulaInfo.toValue))]) []
      (Arg.Field "Formulas") = .ok (Value.slice (formulas.map FormulaInfo.toValue)) := by
    simp [evalArg, List.lookup]
  have hfun := execNode_range FormulaInfo.toValue formulas _ [] [] (Arg.Field "Formulas")
    functionBody (fun _ f => renderFunction f) harg (exec_functionBody [])
  have hent := execNode_range FormulaInfo.toValue formulas _ [] [] (Arg.Field "Formulas")
    entryBody (fun _ f => renderEntry f) harg (exec_entryBody [])
  rw [joinAll_enum_map] at hfun hent
  rw [Template.Execute, codeTemplateTree,
    execList_cons_ok _ _ _ _ _ _ (execNode_text _ _ _)
      (execList_cons_ok _ _ _ _ _ _ hfun
        (execList_cons_ok _ _ _ _ _ _ (execNode_text _ _ _)
          (execList_cons_ok _ _ _ _ _ _ hent
            (execList_cons_ok _ _ _ _ _ _ (execNode_text _ _ _)
              (execList_nil _ _)))))]
  simp [renderFile, String.append_assoc]

/-- What `generateFormulaCode` does when the output file can be created: it
writes the closed form `renderFile` to the file, prints the success line and
returns no error. -/
theorem generateFormulaCode_of_create (fs : FileSystem) (formulas : List FormulaInfo)
    (outputPath : String) (hcreate : fs.createError outputPath = none) :
    (generateFormulaCode fs formulas outputPath).err = none ∧
    (generateFormulaCode fs formulas outputPath).fs.files.get outputPath =
      some (renderFile formulas) ∧
    (generateFormulaCode fs formulas outputPath).stdout =
      ["Code generated successfully and saved to " ++ outputPath ++ "\n"] := by
  simp only [generateFormulaCode, hcreate, parse_codeTemplate, execute_codeTemplateTree,
    GoMap.get_set_self, and_self]

set_option maxRecDepth 100000 in
/-- The closed form agrees with the repository: on the descriptors of the
recorded run it is the text of `example.go` (which ends with one more line
break than the template writes). -/
theorem renderFile_exampleFormulas : renderFile exampleFormulas ++ "\n" = exampleGo := by
  rfl

/-- C10. For every descriptor sequence, when the output file can be created,
`generateFormulaCode` succeeds and the text it writes is: the package clause,
then one function definition per descriptor in the order of the sequence, then
the head of the `FormulaDict` table, then one table entry per descriptor in the
order of the sequence, then the closing brace. There are as many function
definitions and as many entries as descriptors, nothing is reordered, and every
table entry comes after every function definition. -/
theorem generateFormulaCode_order (fs : FileSystem) (formulas : List FormulaInfo)
    (outputPath : String) (hcreate : fs.createError outputPath = none) :
    (generateFormulaCode fs formulas outputPath).err = none ∧
    (generateFormulaCode fs formulas outputPath).fs.files.get outputPath =
      some ("\npackage main\n\n" ++ joinAll (formulas.map renderFunction) ++
        "\n\n// 方法名-方法的映射字典\nvar FormulaDict = map[string]func(...int64) int64\x7b\n\t" ++
        joinAll (formulas.map renderEntry) ++ "\n\x7d\n") ∧
    (formulas.map renderFunction).length = formulas.length ∧
    (formulas.map renderEntry).length = formulas.length := by
  refine ⟨(generateFormulaCode_of_create fs formulas outputPath hcreate).1, ?_, ?_, ?_⟩
  · rw [(generateFormulaCode_of_create fs formulas outputPath hcreate).2.1]
    rfl
  · simp
  · simp

/-- Witness of C10 on the three descriptors of the recorded run, written to a
file system that is empty and accepts every path. -/
theorem generateFormulaCode_order_witness :
    ({ files := [], createError := fun _ => none } : FileSystem).createError
      "formula_generated.go" = none ∧
    (generateFormulaCode { files := [], createError := fun _ => none } exampleFormulas
        "formula_generated.go").fs.files.get "formula_generated.go" =
      some ("\npackage main\n\n" ++ joinAll (exampleFormulas.map renderFunction) ++
        "\n\n// 方法名-方法的映射字典\nvar FormulaDict = map[string]func(...int64) int64\x7b\n\t" ++
        joinAll (exampleFormulas.map renderEntry) ++ "\n\x7d\n") ∧
    exampleFormulas.map renderEntry =
      ["\n\t\"Formula_1\": Formula_1,", "\n\t\"Formula_2\": Formula_2,",
       "\n\t\"Formula_3\": Formula_3,"] :=
  ⟨rfl,
    (generateFormulaCode_order { files := [], createError := fun _ => none } exampleFormulas
      "formula_generated.go" rfl).2.1,
    by decide⟩

/-! ## The compilation loop on a whole batch -/

theorem runCalls_cons (reg : Registry) (t : String) (rest : List String) :
    runCalls reg (t :: rest) =
      ((runCalls (generateFuncName reg t).2 rest).1,
        (generateFuncName reg t).1 :: (runCalls (generateFuncName reg t).2 rest).2) := rfl

/-- The cache keys after a run are the keys before it followed by the new texts
in the order of their first occurrences. -/
theorem runCalls_keys_eq (texts : List String) : ∀ reg : Registry,
    (runCalls reg texts).1.formulaCache.keys =
      texts.foldl (fun seen name => if name ∈ seen then seen else seen ++ [name])
        reg.formulaCache.keys := by
  induction texts with
  | nil => intro reg; rfl
  | cons a rest ih =>
    intro reg
    rw [runCalls_cons, List.foldl_cons]
    simp only
    rw [ih]
    congr 1
    cases hf : reg.formulaCache.get a with
    | some m =>
      have ha : a ∈ reg.formulaCache.keys := by
        by_contra hna
        rw [(GoMap.get_eq_none_iff _ _).mpr hna] at hf
        exact Option.noConfusion hf
      rw [generateFuncName_of_get_some reg a m hf, if_pos ha]
    | none =>
      have ha : a ∉ reg.formulaCache.keys := (GoMap.get_eq_none_iff _ _).mp hf
      rw [generateFuncName_of_get_none reg a hf, if_neg ha]
      simp [GoMap.keys]

/-- The loop of `main` on a batch of formulas that all parse, from any state: it
runs to the end of the batch, leaves the registry that the calls of
`generateFuncName` on the batch leave, appends one descriptor per name minted,
with the text, the name and a rearrangement of the distinct identifiers of the
text, and prints one duplicate report per duplicate. -/
theorem compileLoop_of_parse (rng : Nat → RangeOrder) (batch : List String) :
    ∀ (i : Nat) (st : Compilation), (∀ t ∈ batch, ∃ expr, ParseExpr t = .ok expr) →
      ∃ st', compileLoop rng i st batch = LoopResult.completed st' ∧
        st'.registry = (runCalls st.registry batch).1 ∧
        st'.formulas.map FormulaInfo.entry =
          st.formulas.map FormulaInfo.entry ++
            mintedPairs batch (runCalls st.registry batch).2 ∧
        st'.stdout = st.stdout ++ duplicateReports batch (runCalls st.registry batch).2 ∧
        (∀ d ∈ st'.formulas, d ∈ st.formulas ∨
          ∃ expr, ParseExpr d.FormulaLogic = .ok expr ∧
            d.Variables.Perm (firstSeen (identNames expr))) := by
  induction batch with
  | nil =>
    intro i st _
    exact ⟨st, rfl, rfl, by simp [mintedPairs, runCalls], by simp [duplicateReports, runCalls],
      fun d hd => Or.inl hd⟩
  | cons t rest ih =>
    intro i st hparse
    obtain ⟨expr, hexpr⟩ := hparse t (List.mem_cons_self _ _)
    have hrest : ∀ u ∈ rest, ∃ e, ParseExpr u = .ok e :=
      fun u hu => hparse u (List.mem_cons_of_mem _ hu)
    cases hf : st.registry.formulaCache.get t with
    | some m =>
      obtain ⟨st', h1, h2, h3, h4, h5⟩ :=
        ih (i + 1) { st with stdout := st.stdout ++ [duplicateReport t] } hrest
      refine ⟨st', ?_, ?_, ?_, ?_, h5⟩
      · rw [compileLoop_cons_duplicate rng i st t m rest expr hexpr hf]
        exact h1
      · rw [runCalls_cons, generateFuncName_of_get_some _ _ _ hf]
        exact h2
      · rw [runCalls_cons, generateFuncName_of_get_some _ _ _ hf, h3]
        simp [mintedPairs]
      · rw [runCalls_cons, generateFuncName_of_get_some _ _ _ hf, h4]
        simp [duplicateReports]
    | none =>
      obtain ⟨st', h1, h2, h3, h4, h5⟩ :=
        ih (i + 1)
          { st with
            registry := (generateFuncName st.registry t).2,
            formulas := st.formulas ++
              [{ FuncName := (generateFuncName st.registry t).1.1,
                 FormulaLogic := t,
                 Variables := (rng i).order (firstSeen (identNames expr)) }] } hrest
      refine ⟨st', ?_, ?_, ?_, ?_, ?_⟩
      · rw [compileLoop_cons_fresh rng i st t rest expr hexpr hf]
        exact h1
      · rw [runCalls_cons]
        exact h2
      · rw [runCalls_cons, h3]
        simp [mintedPairs, generateFuncName_of_get_none _ _ hf, FormulaInfo.entry]
      · rw [runCalls_cons, h4]
        simp [duplicateReports, generateFuncName_of_get_none _ _ hf]
      · intro d hd
        rcases h5 d hd with h | h
        · rcases List.mem_append.mp h with h | h
          · exact Or.inl h
          · rw [List.mem_singleton] at h
            subst h
            exact Or.inr ⟨expr, hexpr, (rng i).perm _⟩
        · exact Or.inr h

/-- The loop of `main` from the empty registry on a batch of fewer than `2 ^ 63`
formulas that all parse: one descriptor per distinct text, in the order of the
first occurrences; the `k`-th descriptor is named `Formula_k` and carries its
text and a rearrangement of the distinct identifiers of the text; every later
occurrence of a text is reported as a duplicate and adds no descriptor. -/
theorem compileLoop_batch (rng : Nat → RangeOrder) (batch : List String)
    (hparse : ∀ t ∈ batch, ∃ expr, ParseExpr t = .ok expr) (hlen : batch.length < 2 ^ 63) :
    ∃ st, compileLoop rng 0 Compilation.initial batch = LoopResult.completed st ∧
      st.registry = (runCalls Registry.initial batch).1 ∧
      st.formulas.map (fun d => d.FormulaLogic) = firstSeen batch ∧
      st.formulas.map (fun d => d.FuncName) =
        (List.range (firstSeen batch).length).map mintedName ∧
      (∀ d ∈ st.formulas, ∃ expr, ParseExpr d.FormulaLogic = .ok expr ∧
        d.Variables.Perm (firstSeen (identNames expr))) ∧
      st.stdout = duplicateReports batch (runCalls Registry.initial batch).2 ∧
      st.stdout.length + st.formulas.length = batch.length := by
  obtain ⟨st, h1, h2, h3, h4, h5⟩ := compileLoop_of_parse rng batch 0 Compilation.initial hparse
  have hM : (runCalls Registry.initial batch).1.Minted :=
    runCalls_minted batch _ Registry.minted_initial (by simpa [Registry.initial] using hlen)
  have hcache := runCalls_cache batch Registry.initial
  simp only [Registry.initial, List.nil_append] at hcache
  have hentries : st.formulas.map FormulaInfo.entry =
      (runCalls Registry.initial batch).1.formulaCache := by
    rw [h3]
    simp only [Compilation.initial, List.map_nil, List.nil_append]
    exact hcache.symm
  have hkeys : (runCalls Registry.initial batch).1.formulaCache.keys = firstSeen batch := by
    rw [runCalls_keys_eq]
    rfl
  have hlogic : st.formulas.map (fun d => d.FormulaLogic) = firstSeen batch := by
    rw [← hkeys, ← hentries]
    simp [GoMap.keys, FormulaInfo.entry]
  have hnames : st.formulas.map (fun d => d.FuncName) =
      (List.range (firstSeen batch).length).map mintedName := by
    have hv := hM.2.2
    rw [← hentries] at hv
    have hl : (st.formulas.map FormulaInfo.entry).length = (firstSeen batch).length := by
      rw [← hlogic]
      simp
    rw [hl] at hv
    rw [← hv]
    simp [GoMap.values, FormulaInfo.entry]
  refine ⟨st, h1, h2, hlogic, hnames, ?_, ?_, ?_⟩
  · intro d hd
    rcases h5 d hd with h | h
    · simp [Compilation.initial] at h
    · exact h
  · rw [h4]
    simp [Compilation.initial]
  · have hlenres := runCalls_length batch Registry.initial
    have hf : st.formulas.length = (mintedPairs batch (runCalls Registry.initial batch).2).length := by
      have := congrArg List.length h3
      simpa [Compilation.initial] using this
    rw [h4, hf]
    simp only [Compilation.initial, List.nil_append, duplicateReports, mintedPairs,
      List.length_map]
    have hz : (batch.zip (runCalls Registry.initial batch).2).length = batch.length := by
      simp [List.length_zip, hlenres]
    generalize batch.zip (runCalls Registry.initial batch).2 = zs at hz
    rw [← hz]
    clear hz
    induction zs with
    | nil => rfl
    | cons z zs ihz =>
      cases hb : z.2.2 <;> simp [List.filter_cons, hb] at ihz ⊢ <;> omega

/-! ## The function rendered for one descriptor -/

theorem joinAll_append (a b : List String) : joinAll (a ++ b) = joinAll a ++ joinAll b := by
  induction a with
  | nil => simp [joinAll]
  | cons s rest ih => simp [joinAll, ih, String.append_assoc]

/-- The concatenation of the blocks of a sequence, cut around the block of the
element at position `k`. -/
theorem joinAll_map_split {α : Type} (g : α → String) (l : List α) (k : Nat)
    (hk : k < l.length) :
    joinAll (l.map g) =
      joinAll ((l.take k).map g) ++ g l[k] ++ joinAll ((l.drop (k + 1)).map g) := by
  have hsplit : l = l.take k ++ l[k] :: l.drop (k + 1) := by
    rw [List.getElem_cons_drop l k hk, List.take_append_drop]
  conv_lhs => rw [hsplit]
  rw [List.map_append, joinAll_append, List.map_cons, joinAll, String.append_assoc]

theorem enumFrom_map_getElem {β : Type} (g : Nat → String → β) (vs : List String) :
    ∀ (n i : Nat) (hi : i < vs.length),
      ((List.enumFrom n vs).map (fun iv => g iv.1 iv.2))[i]? = some (g (n + i) vs[i]) := by
  induction vs with
  | nil => intro n i hi; simp at hi
  | cons a rest ih =>
    intro n i hi
    cases i with
    | zero => simp [List.enumFrom]
    | succ j =>
      have hj : j < rest.length := by simpa using hi
      have := ih (n + 1) j hj
      simp only [List.enumFrom, List.map_cons, List.getElem?_cons_succ, List.getElem_cons_succ]
      rw [this]
      congr 2
      omega

/-- C11. For every descriptor of the sequence passed to `generateFormulaCode`
(the one at position `k`), when the output file can be created, the text
written is: the package clause and the functions of the descriptors before it,
then the function of this descriptor, then the functions of the descriptors
after it and the table. The function of the descriptor is the comment line and
the signature carrying `FuncName`, then one binding line per entry of
`Variables`, as many lines as entries and in list order, the line at index `i`
binding `Variables[i]` to `params[i]`, then `return` followed by `FormulaLogic`
as it is, character for character, and the closing brace. -/
theorem generateFormulaCode_function (fs : FileSystem) (formulas : List FormulaInfo)
    (outputPath : String) (hcreate : fs.createError outputPath = none)
    (k : Nat) (hk : k < formulas.length) :
    (generateFormulaCode fs formulas outputPath).fs.files.get outputPath =
      some ("\npackage main\n\n" ++ joinAll ((formulas.take k).map renderFunction) ++
        ("\n// " ++ formulas[k].FuncName ++ " 是生成的计算函数\nfunc " ++ formulas[k].FuncName ++
          "(params ...int64) int64 \x7b\n\t" ++
          joinAll (formulas[k].Variables.enum.map (fun iv => renderBinding iv.1 iv.2)) ++
          "\n\treturn " ++ formulas[k].FormulaLogic ++ "\n\x7d\n") ++
        joinAll ((formulas.drop (k + 1)).map renderFunction) ++
        "\n\n// 方法名-方法的映射字典\nvar FormulaDict = map[string]func(...int64) int64\x7b\n\t" ++
        joinAll (formulas.map renderEntry) ++ "\n\x7d\n") ∧
    (formulas[k].Variables.enum.map (fun iv => renderBinding iv.1 iv.2)).length =
      formulas[k].Variables.length ∧
    (∀ (i : Nat) (hi : i < formulas[k].Variables.length),
      (formulas[k].Variables.enum.map (fun iv => renderBinding iv.1 iv.2))[i]? =
        some ("\n\t" ++ formulas[k].Variables[i] ++ " := params[" ++ Itoa (Int.ofNat i) ++
          "] // 动态映射变量\n\t")) := by
  refine ⟨?_, by simp, ?_⟩
  · rw [(generateFormulaCode_of_create fs formulas outputPath hcreate).2.1, renderFile,
      joinAll_map_split renderFunction formulas k hk]
    simp only [renderFunction, String.append_assoc]
  · intro i hi
    have := enumFrom_map_getElem renderBinding formulas[k].Variables 0 i hi
    rw [Nat.zero_add] at this
    exact this

/-- Witness of C11: the second descriptor of the recorded run, whose logic
`a * b + c/d` has no blank around the division sign. -/
theorem generateFormulaCode_function_witness :
    ({ files := [], createError := fun _ => none } : FileSystem).createError
      "formula_generated.go" = none ∧
    1 < exampleFormulas.length ∧
    (generateFormulaCode { files := [], createError := fun _ => none } exampleFormulas
        "formula_generated.go").fs.files.get "formula_generated.go" =
      some ("\npackage main\n\n" ++ joinAll ((exampleFormulas.take 1).map renderFunction) ++
        ("\n// " ++ "Formula_2" ++ " 是生成的计算函数\nfunc " ++ "Formula_2" ++
          "(params ...int64) int64 \x7b\n\t" ++
          joinAll (["a", "b", "c", "d"].enum.map (fun iv => renderBinding iv.1 iv.2)) ++
          "\n\treturn " ++ "a * b + c/d" ++ "\n\x7d\n") ++
        joinAll ((exampleFormulas.drop (1 + 1)).map renderFunction) ++
        "\n\n// 方法名-方法的映射字典\nvar FormulaDict = map[string]func(...int64) int64\x7b\n\t" ++
        joinAll (exampleFormulas.map renderEntry) ++ "\n\x7d\n") ∧
    ["a", "b", "c", "d"].enum.map (fun iv => renderBinding iv.1 iv.2) =
      ["\n\ta := params[0] // 动态映射变量\n\t", "\n\tb := params[1] // 动态映射变量\n\t",
       "\n\tc := params[2] // 动态映射变量\n\t", "\n\td := params[3] // 动态映射变量\n\t"] :=
  ⟨rfl, by decide,
    (generateFormulaCode_function { files := [], createError := fun _ => none } exampleFormulas
      "formula_generated.go" rfl 1 (by decide)).1,
    by decide⟩

/-! ## Parse failures and retries in the compilation loop -/

theorem parses_spec (formula : String) (h : parses formula = true) :
    ∃ expr, ParseExpr formula = .ok expr := by
  unfold parses at h
  cases hp : ParseExpr formula with
  | ok expr => exact ⟨expr, rfl⟩
  | error e => simp [hp] at h

theorem parses_all (batch : List String) (h : ∀ t ∈ batch, parses t = true) :
    ∀ t ∈ batch, ∃ expr, ParseExpr t = .ok expr :=
  fun t ht => parses_spec t (h t ht)

/-- The function `main` is its body run on the literal batch `rawFormulas`. -/
theorem main_eq_mainWith (rng : Nat → RangeOrder) (fs : FileSystem) :
    main rng fs = mainWith rng fs rawFormulas := rfl

/-- One iteration of the loop on a formula for which `extractVariables` fails:
the error is printed and the loop ends; `generateFuncName` is not reached. -/
theorem compileLoop_cons_error (rng : Nat → RangeOrder) (i : Nat) (st : Compilation)
    (formula err : String) (rest : List String)
    (hfail : extractVariables (rng i) formula = .error err) :
    compileLoop rng i st (formula :: rest) =
      LoopResult.aborted
        { st with stdout := st.stdout ++
            ["Error extracting variables for formula: " ++ err ++ "\n"] } := by
  rw [compileLoop, hfail]

/-- The loop on a batch that starts with formulas that all parse: it handles
them as it handles them alone, and goes on with the rest of the batch from the
state reached. -/
theorem compileLoop_append (rng : Nat → RangeOrder) (pre : List String) :
    ∀ (i : Nat) (st : Compilation), (∀ t ∈ pre, ∃ expr, ParseExpr t = .ok expr) →
      ∃ mid, compileLoop rng i st pre = LoopResult.completed mid ∧
        ∀ suffix, compileLoop rng i st (pre ++ suffix) =
          compileLoop rng (i + pre.length) mid suffix := by
  induction pre with
  | nil =>
    intro i st _
    exact ⟨st, rfl, fun suffix => rfl⟩
  | cons t rest ih =>
    intro i st hparse
    obtain ⟨expr, hexpr⟩ := hparse t (List.mem_cons_self _ _)
    have hrest : ∀ u ∈ rest, ∃ e, ParseExpr u = .ok e :=
      fun u hu => hparse u (List.mem_cons_of_mem _ hu)
    have hidx : i + 1 + rest.length = i + (t :: rest).length := by
      simp only [List.length_cons]; omega
    cases hf : st.registry.formulaCache.get t with
    | some m =>
      obtain ⟨mid, h1, h2⟩ :=
        ih (i + 1) { st with stdout := st.stdout ++ [duplicateReport t] } hrest
      refine ⟨mid, ?_, ?_⟩
      · rw [compileLoop_cons_duplicate rng i st t m rest expr hexpr hf]
        exact h1
      · intro suffix
        rw [List.cons_append,
          compileLoop_cons_duplicate rng i st t m (rest ++ suffix) expr hexpr hf, h2 suffix,
          hidx]
    | none =>
      obtain ⟨mid, h1, h2⟩ :=
        ih (i + 1)
          { st with
            registry := (generateFuncName st.registry t).2,
            formulas := st.formulas ++
              [{ FuncName := (generateFuncName st.registry t).1.1,
                 FormulaLogic := t,
                 Variables := (rng i).order (firstSeen (identNames expr)) }] } hrest
      refine ⟨mid, ?_, ?_⟩
      · rw [compileLoop_cons_fresh rng i st t rest expr hexpr hf]
        exact h1
      · intro suffix
        rw [List.cons_append,
          compileLoop_cons_fresh rng i st t (rest ++ suffix) expr hexpr hf, h2 suffix, hidx]

/-- C12. A failed parse never mutates the registry. Take a batch whose formulas
up to some position all parse, and let `extractVariables` return an error for
the formula at that position. The loop handles that formula by printing the
error and ending: `generateFuncName` is not called for it, and the registry
(`idCounter` and `formulaCache`) and the descriptor list are after it exactly
what they were before it. -/
theorem compileLoop_failed_parse (rng : Nat → RangeOrder) (st : Compilation)
    (pre : List String) (formula : String) (rest : List String) (err : String)
    (hpre : ∀ t ∈ pre, ∃ expr, ParseExpr t = .ok expr)
    (hfail : extractVariables (rng pre.length) formula = .error err) :
    ∃ before after,
      compileLoop rng 0 st pre = LoopResult.completed before ∧
      compileLoop rng 0 st (pre ++ formula :: rest) = LoopResult.aborted after ∧
      after.registry = before.registry ∧
      after.registry.idCounter = before.registry.idCounter ∧
      after.registry.formulaCache = before.registry.formulaCache ∧
      after.formulas = before.formulas ∧
      after.stdout = before.stdout ++
        ["Error extracting variables for formula: " ++ err ++ "\n"] := by
  obtain ⟨mid, h1, h2⟩ := compileLoop_append rng pre 0 st hpre
  refine ⟨mid,
    { mid with stdout := mid.stdout ++
        ["Error extracting variables for formula: " ++ err ++ "\n"] },
    h1, ?_, rfl, rfl, rfl, rfl, rfl⟩
  rw [h2, Nat.zero_add]
  exact compileLoop_cons_error rng pre.length mid formula err rest hfail

/-- Witness of C12: the malformed `a + )` between two formulas that parse. -/
theorem compileLoop_failed_parse_witness :
    (∀ t ∈ ["a + b"], ∃ expr, ParseExpr t = .ok expr) ∧
    extractVariables (exampleOrders ["a + b"].length) "a + )" =
      .error "failed to parse formula: expected operand" ∧
    compileLoop exampleOrders 0 Compilation.initial ["a + b", "a + )", "b + c"] =
      LoopResult.aborted
        { registry := { idCounter := 1, formulaCache := [("a + b", "Formula_1")] },
          formulas := [{ FuncName := "Formula_1", FormulaLogic := "a + b",
                         Variables := ["b", "a"] }],
          stdout := ["Error extracting variables for formula: " ++
            "failed to parse formula: expected operand" ++ "\n"] } ∧
    (∃ before after,
      compileLoop exampleOrders 0 Compilation.initial ["a + b"] = LoopResult.completed before ∧
      compileLoop exampleOrders 0 Compilation.initial (["a + b"] ++ "a + )" :: ["b + c"]) =
        LoopResult.aborted after ∧
      after.registry = before.registry) :=
  ⟨parses_all _ (by decide),
    by decide, by decide,
    (compileLoop_failed_parse exampleOrders Compilation.initial ["a + b"] "a + )" ["b + c"]
      "failed to parse formula: expected operand"
      (parses_all _ (by decide))
      (by decide)).imp
      (fun _ h => h.imp (fun _ h' => ⟨h'.1, h'.2.1, h'.2.2.1⟩))⟩

/-- C13, as stated, fails. In the batch `["a + )", "b + c"]` the formula `b + c`
parses, comes after the malformed `a + )` and has not been seen, yet the loop
ends at `a + )`: `b + c` gets no name and no descriptor, and `main` returns
without writing the output file. -/
theorem compileLoop_later_formulas_not_compiled :
    ParseExpr "a + )" = .error "expected operand" ∧
    ParseExpr "b + c" = .ok (Node.BinaryExpr (Node.Ident "b") Token.ADD (Node.Ident "c")) ∧
    compileLoop (fun _ => RangeOrder.insertion) 0 Compilation.initial ["a + )", "b + c"] =
      LoopResult.aborted
        { registry := Registry.initial,
          formulas := [],
          stdout := ["Error extracting variables for formula: " ++
            "failed to parse formula: expected operand" ++ "\n"] } ∧
    (mainWith (fun _ => RangeOrder.insertion) { files := [], createError := fun _ => none }
      ["a + )", "b + c"]).1.files = [] ∧
    ¬ (∀ (rng : Nat → RangeOrder) (pre : List String) (bad : String) (post : List String)
        (err : String) (t : String), ParseExpr bad = .error err → t ∈ post → t ∉ pre →
        (∃ expr, ParseExpr t = .ok expr) →
        ∃ d ∈ (compileLoop rng 0 Compilation.initial (pre ++ bad :: post)).state.formulas,
          d.FormulaLogic = t) := by
  refine ⟨by decide, by decide, by decide, by decide, ?_⟩
  intro h
  obtain ⟨d, hd, _⟩ := h (fun _ => RangeOrder.insertion) [] "a + )" ["b + c"] "expected operand"
    "b + c" (by decide) (by simp) (by simp) (parses_spec _ (by decide))
  revert hd
  have hrun : (compileLoop (fun _ => RangeOrder.insertion) 0 Compilation.initial
      ([] ++ "a + )" :: ["b + c"])).state.formulas = [] := by decide
  rw [hrun]
  simp

/-- C13, amended. For every batch that contains a formula failing to parse, the
loop of `main` ends at the first such formula: the formulas before it have been
handled and keep their names, the error is printed, no formula that occurs only
after it receives a name or a descriptor, and `main` returns without emitting
anything (the file system is left as it was). -/
theorem compileLoop_stops_at_failed_parse (rng : Nat → RangeOrder) (fs : FileSystem)
    (pre : List String) (bad : String) (post : List String) (err : String)
    (hpre : ∀ t ∈ pre, ∃ expr, ParseExpr t = .ok expr)
    (hbad : ParseExpr bad = .error err) :
    ∃ st, compileLoop rng 0 Compilation.initial (pre ++ bad :: post) = LoopResult.aborted st ∧
      st.registry = (runCalls Registry.initial pre).1 ∧
      (∀ t ∈ pre, ∃ n, st.registry.formulaCache.get t = some n) ∧
      (∀ t ∈ post, t ∉ pre →
        st.registry.formulaCache.get t = none ∧ ∀ d ∈ st.formulas, d.FormulaLogic ≠ t) ∧
      st.stdout.getLast? = some ("Error extracting variables for formula: " ++
        ("failed to parse formula: " ++ err) ++ "\n") ∧
      mainWith rng fs (pre ++ bad :: post) = (fs, st.stdout) := by
  obtain ⟨mid, h1, h2⟩ := compileLoop_append rng pre 0 Compilation.initial hpre
  obtain ⟨mid', h1', hreg, hentries, _, _⟩ :=
    compileLoop_of_parse rng pre 0 Compilation.initial hpre
  have hmid : mid' = mid := by
    rw [h1] at h1'
    exact (LoopResult.completed.inj h1').symm
  subst hmid
  have hfail := extractVariables_of_error (rng pre.length) bad err hbad
  have hrun : compileLoop rng 0 Compilation.initial (pre ++ bad :: post) =
      LoopResult.aborted
        { mid' with stdout := mid'.stdout ++
            ["Error extracting variables for formula: " ++
              ("failed to parse formula: " ++ err) ++ "\n"] } := by
    rw [h2, Nat.zero_add]
    exact compileLoop_cons_error rng pre.length mid' bad _ post hfail
  have hcache := runCalls_cache pre Registry.initial
  simp only [Registry.initial, List.nil_append] at hcache
  have hent : mid'.formulas.map FormulaInfo.entry = mid'.registry.formulaCache := by
    rw [hentries, hreg]
    simp only [Compilation.initial, List.map_nil, List.nil_append]
    exact hcache.symm
  have hkeys : ∀ t, t ∈ mid'.registry.formulaCache.keys ↔ t ∈ pre := by
    intro t
    rw [hreg, runCalls_keys]
    simp [Compilation.initial, Registry.initial, GoMap.keys]
  refine ⟨_, hrun, hreg, ?_, ?_, ?_, ?_⟩
  · intro t ht
    cases hg : mid'.registry.formulaCache.get t with
    | some n => exact ⟨n, rfl⟩
    | none => exact absurd ((hkeys t).mpr ht) ((GoMap.get_eq_none_iff _ _).mp hg)
  · intro t _ hnot
    have hnk : t ∉ mid'.registry.formulaCache.keys := fun hk => hnot ((hkeys t).mp hk)
    refine ⟨(GoMap.get_eq_none_iff _ _).mpr hnk, ?_⟩
    intro d hd hdt
    apply hnk
    have : d.entry ∈ mid'.formulas.map FormulaInfo.entry := List.mem_map_of_mem _ hd
    rw [hent] at this
    have hfst : d.entry.1 ∈ mid'.registry.formulaCache.keys := List.mem_map_of_mem _ this
    rw [← hdt]
    exact hfst
  · simp
  · simp only [mainWith, hrun]

/-- Witness of the amended C13: one formula before the malformed `a + )`, one
after it. -/
theorem compileLoop_stops_at_failed_parse_witness :
    (∀ t ∈ ["a + b"], ∃ expr, ParseExpr t = .ok expr) ∧
    ParseExpr "a + )" = .error "expected operand" ∧
    (∃ st, compileLoop exampleOrders 0 Compilation.initial (["a + b"] ++ "a + )" :: ["b + c"]) =
        LoopResult.aborted st ∧
      (∀ t ∈ ["b + c"], t ∉ ["a + b"] →
        st.registry.formulaCache.get t = none ∧ ∀ d ∈ st.formulas, d.FormulaLogic ≠ t) ∧
      mainWith exampleOrders { files := [], createError := fun _ => none }
        (["a + b"] ++ "a + )" :: ["b + c"]) =
        ({ files := [], createError := fun _ => none }, st.stdout)) :=
  ⟨parses_all _ (by decide),
    by decide,
    (compileLoop_stops_at_failed_parse exampleOrders { files := [], createError := fun _ => none }
      ["a + b"] "a + )" ["b + c"] "expected operand"
      (parses_all _ (by decide))
      (by decide)).imp
      (fun _ h => ⟨h.1, h.2.2.2.1, h.2.2.2.2.2⟩)⟩

/-- A run of calls on texts that are all cached: every call returns the cached
name with `true` and the registry stays as it is. -/
theorem runCalls_all_cached (texts : List String) (reg : Registry)
    (hcached : ∀ t ∈ texts, ∃ n, reg.formulaCache.get t = some n) :
    runCalls reg texts =
      (reg, texts.map (fun t => ((reg.formulaCache.get t).getD "", true))) := by
  induction texts with
  | nil => rfl
  | cons a rest ih =>
    obtain ⟨n, hn⟩ := hcached a (List.mem_cons_self _ _)
    rw [runCalls_cons, generateFuncName_of_get_some reg a n hn]
    simp only
    rw [ih (fun t ht => hcached t (List.mem_cons_of_mem _ ht))]
    simp [hn]

/-- The loop on a batch of formulas that parse and are all cached: one duplicate
report per formula, no descriptor, the registry stays as it is. -/
theorem compileLoop_all_cached (rng : Nat → RangeOrder) (batch : List String) :
    ∀ (i : Nat) (st : Compilation), (∀ t ∈ batch, ∃ expr, ParseExpr t = .ok expr) →
      (∀ t ∈ batch, ∃ n, st.registry.formulaCache.get t = some n) →
      compileLoop rng i st batch =
        LoopResult.completed { st with stdout := st.stdout ++ batch.map duplicateReport } := by
  induction batch with
  | nil => intro i st _ _; simp [compileLoop]
  | cons t rest ih =>
    intro i st hparse hcached
    obtain ⟨expr, hexpr⟩ := hparse t (List.mem_cons_self _ _)
    obtain ⟨n, hn⟩ := hcached t (List.mem_cons_self _ _)
    rw [compileLoop_cons_duplicate rng i st t n rest expr hexpr hn,
      ih (i + 1) { st with stdout := st.stdout ++ [duplicateReport t] }
        (fun u hu => hparse u (List.mem_cons_of_mem _ hu))
        (fun u hu => hcached u (List.mem_cons_of_mem _ hu))]
    simp

/-- C15. Retrying a whole batch is idempotent on the registry. For every batch
of formulas that parse, run the loop of `main` once from any registry, then run
it again, with an empty descriptor list, on the registry the first run left.
The second run completes, mints no name, leaves `idCounter` and `formulaCache`
as the first run left them, has an empty descriptor list, prints one duplicate
report per formula of the batch, and each of its `generateFuncName` calls
returns `true` with the name the formula got in the first run. -/
theorem compileLoop_retry (rng₁ rng₂ : Nat → RangeOrder) (reg : Registry) (batch : List String)
    (hparse : ∀ t ∈ batch, ∃ expr, ParseExpr t = .ok expr) :
    ∃ first second,
      compileLoop rng₁ 0 { registry := reg, formulas := [], stdout := [] } batch =
        LoopResult.completed first ∧
      compileLoop rng₂ 0 { registry := first.registry, formulas := [], stdout := [] } batch =
        LoopResult.completed second ∧
      second.registry = first.registry ∧
      second.registry.idCounter = first.registry.idCounter ∧
      second.registry.formulaCache = first.registry.formulaCache ∧
      second.formulas = [] ∧
      second.stdout = batch.map duplicateReport ∧
      (runCalls first.registry batch).1 = first.registry ∧
      (∀ p ∈ batch.zip (runCalls reg batch).2, ∀ q ∈ batch.zip (runCalls first.registry batch).2,
        p.1 = q.1 → q.2 = (p.2.1, true)) := by
  obtain ⟨first, h1, hreg, _, _, _⟩ :=
    compileLoop_of_parse rng₁ batch 0 { registry := reg, formulas := [], stdout := [] } hparse
  have hres := runCalls_results batch reg
  have hlen := runCalls_length batch reg
  have hcached : ∀ t ∈ batch, ∃ n, first.registry.formulaCache.get t = some n := by
    intro t ht
    obtain ⟨i, hi, rfl⟩ := List.getElem_of_mem ht
    have hz : i < (batch.zip (runCalls reg batch).2).length := by
      simp [List.length_zip, hlen, hi]
    have hp := hres _ (List.getElem_mem hz)
    rw [List.getElem_zip] at hp
    rw [hreg]
    exact ⟨_, hp⟩
  have h2 := compileLoop_all_cached rng₂ batch 0
    { registry := first.registry, formulas := [], stdout := [] } hparse hcached
  have hcalls := runCalls_all_cached batch first.registry hcached
  refine ⟨first, _, h1, h2, rfl, rfl, rfl, rfl, by simp, by rw [hcalls], ?_⟩
  intro p hp q hq hpq
  have hp' := hres p hp
  rw [← hreg] at hp'
  rw [hcalls] at hq
  simp only at hq
  obtain ⟨j, hj, rfl⟩ := List.getElem_of_mem hq
  simp only [List.getElem_zip, List.getElem_map] at hpq ⊢
  rw [← hpq, hp']
  rfl

/-- Witness of C15 on the batch of `main`. -/
theorem compileLoop_retry_witness :
    (∀ t ∈ rawFormulas, ∃ expr, ParseExpr t = .ok expr) ∧
    (∃ first second,
      compileLoop exampleOrders 0 { registry := Registry.initial, formulas := [], stdout := [] }
        rawFormulas = LoopResult.completed first ∧
      compileLoop exampleOrders 0 { registry := first.registry, formulas := [], stdout := [] }
        rawFormulas = LoopResult.completed second ∧
      second.registry = first.registry ∧
      second.formulas = [] ∧
      second.stdout = rawFormulas.map duplicateReport) :=
  ⟨parses_all _ (by decide),
    (compileLoop_retry exampleOrders exampleOrders Registry.initial rawFormulas
      (parses_all _ (by decide))).imp
      (fun _ h => h.imp (fun _ h' => ⟨h'.1, h'.2.1, h'.2.2.1, h'.2.2.2.2.2.1, h'.2.2.2.2.2.2.1⟩))⟩

/-! ## Concurrent callers -/

/-- The sections of `generateFuncName` compose to the sequential function: a
goroutine that runs alone, starting with `idLock` free, leaves the registry and
returns the result of `generateFuncName`, with `idLock` free again. -/
theorem runSchedule_alone (reg : Registry) (formula : String) :
    runSchedule { registry := reg, idLock := false } [Call.lookup formula] [0, 0, 0] =
      ({ registry := (generateFuncName reg formula).2, idLock := false },
        [Call.returned (generateFuncName reg formula).1.1 (generateFuncName reg formula).1.2]) := by
  cases hf : reg.formulaCache.get formula with
  | some n =>
    simp [runSchedule, Call.step, hf, generateFuncName]
  | none =>
    simp [runSchedule, Call.step, hf, generateFuncName]

/-- C14, the divergence. Two goroutines call `generateFuncName` with the same
never-before-seen text `a + b` on the initial registry. When both run their
read-locked lookup before either stores, both miss, and each then takes
`idLock` in turn and mints: two names are minted, `idCounter` ends at 2, the
callers observe `Formula_1` and `Formula_2`, and the cache entry written by the
first is overwritten by the second. When the second goroutine starts after the
first has returned, one name is minted and both observe it. -/
theorem runSchedule_two_names :
    runSchedule { registry := Registry.initial, idLock := false }
        [Call.lookup "a + b", Call.lookup "a + b"] [0, 1, 0, 0, 1, 1] =
      ({ registry := { idCounter := 2, formulaCache := [("a + b", "Formula_2")] },
         idLock := false },
        [Call.returned "Formula_1" false, Call.returned "Formula_2" false]) ∧
    runSchedule { registry := Registry.initial, idLock := false }
        [Call.lookup "a + b", Call.lookup "a + b"] [0, 1, 0, 0] =
      ({ registry := { idCounter := 1, formulaCache := [("a + b", "Formula_1")] },
         idLock := false },
        [Call.returned "Formula_1" false, Call.waiting "a + b"]) ∧
    runSchedule { registry := Registry.initial, idLock := false }
        [Call.lookup "a + b", Call.lookup "a + b"] [0, 0, 0, 1] =
      ({ registry := { idCounter := 1, formulaCache := [("a + b", "Formula_1")] },
         idLock := false },
        [Call.returned "Formula_1" false, Call.returned "Formula_1" true]) := by
  decide

/-! ## The order of the variable list, and names without gaps -/

/-- C16, the divergence. The list returned by `extractVariables` is not sorted:
for `a + b - c`, with the map iteration starting at the key inserted last, it
is `[c, a, b]`; and for `b + a`, with the iteration in insertion order, it is
`[b, a]`. Neither list is in ascending alphabetical order. -/
theorem extractVariables_not_sorted :
    extractVariables RangeOrder.fromLast "a + b - c" = .ok ["c", "a", "b"] ∧
    ¬ List.Sorted (fun a b : String => a ≤ b) ["c", "a", "b"] ∧
    extractVariables RangeOrder.insertion "b + a" = .ok ["b", "a"] ∧
    ¬ List.Sorted (fun a b : String => a ≤ b) ["b", "a"] := by
  refine ⟨by decide, ?_, by decide, ?_⟩
  · intro h
    have := List.rel_of_sorted_cons h "a" (by simp)
    rw [String.le_iff_toList_le] at this
    revert this
    decide
  · intro h
    have := List.rel_of_sorted_cons h "a" (by simp)
    rw [String.le_iff_toList_le] at this
    revert this
    decide

theorem GoMap.get_of_mem_of_nodup {β : Type} (m : GoMap β) (k : String) (v : β)
    (hnodup : m.keys.Nodup) (hmem : (k, v) ∈ m) : m.get k = some v := by
  induction m with
  | nil => simp at hmem
  | cons p rest ih =>
    obtain ⟨k', v'⟩ := p
    simp only [GoMap.keys, List.map_cons, List.nodup_cons] at hnodup
    rcases List.mem_cons.mp hmem with h | h
    · simp only [Prod.mk.injEq] at h
      obtain ⟨rfl, rfl⟩ := h
      simp [GoMap.get]
    · have hne : k' ≠ k := by
        intro hk
        subst hk
        exact hnodup.1 (List.mem_map_of_mem Prod.fst h)
      simp only [GoMap.get, hne, if_false]
      exact ih hnodup.2 h

/-- C17. Names are minted without gaps. In every state reached from the initial
state by fewer than `2 ^ 63` sequential `generateFuncName` calls, `formulaCache`
has exactly `idCounter` entries, all for different texts; its values are
`Formula_1`, ..., `Formula_idCounter`, each once (a name is a value exactly when
it is `Formula_k` for some `k` from 1 to `idCounter`); and every value is the
name of exactly one text. -/
theorem generateFuncName_no_gaps (texts : List String) (hlen : texts.length < 2 ^ 63) :
    (runCalls Registry.initial texts).1.idCounter =
      Int.ofNat (runCalls Registry.initial texts).1.formulaCache.length ∧
    (runCalls Registry.initial texts).1.formulaCache.keys.Nodup ∧
    (runCalls Registry.initial texts).1.formulaCache.values.Nodup ∧
    (runCalls Registry.initial texts).1.formulaCache.values =
      (List.range (runCalls Registry.initial texts).1.formulaCache.length).map
        (fun k => "Formula_" ++ Itoa (Int.ofNat (k + 1))) ∧
    (∀ n, n ∈ (runCalls Registry.initial texts).1.formulaCache.values ↔
      ∃ k : Nat, 1 ≤ k ∧ Int.ofNat k ≤ (runCalls Registry.initial texts).1.idCounter ∧
        n = "Formula_" ++ Itoa (Int.ofNat k)) ∧
    (∀ n ∈ (runCalls Registry.initial texts).1.formulaCache.values,
      ∃! t, (runCalls Registry.initial texts).1.formulaCache.get t = some n) := by
  have hM : (runCalls Registry.initial texts).1.Minted :=
    runCalls_minted texts _ Registry.minted_initial (by simpa [Registry.initial] using hlen)
  have hc := hM.1
  have hk := hM.2.1
  have hv := hM.2.2
  refine ⟨hc, hk, hM.values_nodup, hv, ?_, ?_⟩
  · intro n
    rw [hv, hc]
    simp only [List.mem_map, List.mem_range, mintedName]
    constructor
    · rintro ⟨k, hk', rfl⟩
      exact ⟨k + 1, by omega, Int.ofNat_le.mpr (by omega), rfl⟩
    · rintro ⟨k, h1, h2, rfl⟩
      have h2' : k ≤ (runCalls Registry.initial texts).1.formulaCache.length :=
        Int.ofNat_le.mp h2
      refine ⟨k - 1, by omega, ?_⟩
      rw [show k - 1 + 1 = k by omega]
  · intro n hn
    obtain ⟨p, hp, rfl⟩ := List.mem_map.mp hn
    refine ⟨p.1, GoMap.get_of_mem_of_nodup _ p.1 p.2 hk hp, ?_⟩
    intro t ht
    exact hM.get_injective t p.1 p.2 ht (GoMap.get_of_mem_of_nodup _ p.1 p.2 hk hp)

/-- Witness of C17: the state after the four calls of a run of `main`. -/
theorem generateFuncName_no_gaps_witness :
    rawFormulas.length < 2 ^ 63 ∧
    (runCalls Registry.initial rawFormulas).1 =
      { idCounter := 3,
        formulaCache := [("a + b - c", "Formula_1"), ("a * b + c/d", "Formula_2"),
          ("a + b * c - d", "Formula_3")] } ∧
    (runCalls Registry.initial rawFormulas).1.formulaCache.values =
      (List.range (runCalls Registry.initial rawFormulas).1.formulaCache.length).map
        (fun k => "Formula_" ++ Itoa (Int.ofNat (k + 1))) :=
  ⟨by decide, by decide, (generateFuncName_no_gaps rawFormulas (by decide)).2.2.2.1⟩

end FormulaGenerate
